import Mathlib

/-!
# Arbitrary-precision calculator: digit-list arithmetic

A shallow embedding of the calculator's C sources (`function.c`, `Addition.c`,
`Subtraction.c`, `multiplication.c`, `division.c`, and from `main.c` the input
validation, the `switch` and the printing of the result's sign).

* A `Dlist` reached through its `head`/`tail` pointers is a `List Int`, most
  significant digit first (`data_t` is `int`).  Walking `->next` from the head
  is walking the list; walking `->prev` from the tail is walking its reverse.
* An out-parameter (`Dlist **`, `int *`) becomes a component of the returned
  tuple.
* `malloc`/`calloc` are taken to succeed.
* C `int` cells and counters are unbounded integers here (the digit sums and
  partial products stay far below `2^31` for every operand that fits on a
  command line); C `/` and `%` are `Int.tdiv` and `Int.tmod`.
* The only loop without an obvious bound, the repeated subtraction inside
  `div_number`, takes a fuel argument and answers `none` when it is used up.
-/

namespace APC

/-! ## Constants (`apc.h`) -/

/-- `#define SUCCESS 0`. -/
def SUCCESS : Int := 0

/-- `#define FAILURE -1`. -/
def FAILURE : Int := -1

/-! ## Linked-list primitives (`function.c`) -/

/-- `dl_insert_last`: append one digit after the tail. -/
def dl_insert_last (l : List Int) (data : Int) : List Int := l ++ [data]

/-- `dl_insert_first`: put one digit before the head. -/
def dl_insert_first (l : List Int) (data : Int) : List Int := data :: l

/-- `dl_delete_first`: drop the head node; `FAILURE` on an empty list. -/
def dl_delete_first : List Int → Int × List Int
  | [] => (FAILURE, [])
  | _ :: t => (SUCCESS, t)

/-- `dl_delete_list`: free every node, leaving the empty list. -/
def dl_delete_list (_l : List Int) : List Int := []

/-- `get_list_length`: number of nodes. -/
def get_list_length (l : List Int) : Nat := l.length

/-- `trim_leading_zeroes`:
`while ((*head)->next != NULL && (*head)->data == 0) dl_delete_first(head, tail);`
and nothing at all on an empty list. -/
def trim_leading_zeroes : List Int → List Int
  | [] => []
  | [d] => [d]
  | d :: e :: t => if d = 0 then trim_leading_zeroes (e :: t) else d :: e :: t

/-- `is_zero`: `1` when the list is empty or every digit is `0`, else `0`. -/
def is_zero : List Int → Int
  | [] => 1
  | d :: t => if d ≠ 0 then 0 else is_zero t

/-- `copy_list`: a fresh list with the same digits, built with `dl_insert_last`. -/
def copy_list_loop : List Int → List Int → List Int
  | [], dest => dest
  | d :: t, dest => copy_list_loop t (dl_insert_last dest d)

/-- `copy_list(src, &dest_head, &dest_tail)`: the destination is reset, then filled. -/
def copy_list (src : List Int) : List Int := copy_list_loop src []

/-! ## Reading a digit list as a number -/

/-- Decimal value of a digit list, most significant digit first. -/
def value (l : List Int) : Int := l.foldl (fun acc d => 10 * acc + d) 0

/-- Every entry is a decimal digit. -/
def is_digits (l : List Int) : Prop := ∀ d ∈ l, 0 ≤ d ∧ d ≤ 9

instance (l : List Int) : Decidable (is_digits l) := by
  unfold is_digits; infer_instance

/-- The Magnitude invariant: at least one digit, all digits in `0..9`, no
leading zero unless the list is exactly `[0]`. -/
def normalized (l : List Int) : Prop :=
  l ≠ [] ∧ is_digits l ∧ (l.head? = some 0 → l = [0])

instance (l : List Int) : Decidable (normalized l) := by
  unfold normalized; infer_instance

/-! ## Addition (`Addition.c`) -/

/-- `update_result_add(head, tail, result, &carry)`: returns the result list
with the digit inserted in front, and the new carry. -/
def update_result_add (res : List Int) (result : Int) : List Int × Int :=
  if result > 9 then
    (dl_insert_first res (Int.tmod result 10), Int.tdiv result 10)
  else
    (dl_insert_first res result, 0)

/-- The `while (temp1 != NULL || temp2 != NULL)` loop of `add_number`; the two
list arguments are the nodes still to visit, least significant first. -/
def add_loop : List Int → List Int → Int → List Int → List Int × Int
  | [], [], carry, res => (res, carry)
  | d1 :: t1, [], carry, res =>
      let r := update_result_add res (carry + d1)
      add_loop t1 [] r.2 r.1
  | [], d2 :: t2, carry, res =>
      let r := update_result_add res (carry + d2)
      add_loop [] t2 r.2 r.1
  | d1 :: t1, d2 :: t2, carry, res =>
      let r := update_result_add res (carry + d1 + d2)
      add_loop t1 t2 r.2 r.1

/-- `add_number(&head1, &tail1, &head2, &tail2, &head3, &tail3)`: returns the
status and the result list `head3`. -/
def add_number (l1 l2 l3 : List Int) : Int × List Int :=
  let r := add_loop l1.reverse l2.reverse 0 l3
  if r.2 ≠ 0 then (SUCCESS, dl_insert_first r.1 r.2) else (SUCCESS, r.1)

/-! ## Subtraction (`Subtraction.c`) -/

/-- `swap_lists`: exchange the caller's two list references. -/
def swap_lists (l1 l2 : List Int) : List Int × List Int := (l2, l1)

/-- The digit-by-digit `while (ptr1 != NULL && ptr2 != NULL)` loop of
`compare_numbers`; `l1`, `l2` are the caller's references, the last two
arguments the nodes still to compare. -/
def compare_loop (l1 l2 : List Int) : List Int → List Int → Int × List Int × List Int
  | d1 :: t1, d2 :: t2 =>
      if d1 < d2 then (1, swap_lists l1 l2)
      else if d1 > d2 then (0, l1, l2)
      else compare_loop l1 l2 t1 t2
  | _, _ => (0, l1, l2)

/-- `compare_numbers(&head1, &tail1, &head2, &tail2, op1, op2)`: returns the
flag together with the caller's first and second references as it leaves them. -/
def compare_numbers (l1 l2 : List Int) : Int × List Int × List Int :=
  let len1 := get_list_length l1
  let len2 := get_list_length l2
  if len1 < len2 then (1, swap_lists l1 l2)
  else if len1 > len2 then (0, l1, l2)
  else compare_loop l1 l2 l1 l2

/-- The `while (temp1 != NULL)` loop of `sub_number`; the list arguments are
the nodes still to visit, least significant first. -/
def sub_loop : List Int → List Int → Int → List Int → List Int
  | [], _, _, res => res
  | d1 :: t1, temp2, borrow, res =>
      let digit2 : Int := match temp2 with
        | [] => 0
        | d2 :: _ => d2
      let digit1a : Int := if borrow = 1 then d1 - 1 else d1
      let borrow_a : Int := if borrow = 1 then 0 else borrow
      let digit1b : Int := if digit1a < digit2 then digit1a + 10 else digit1a
      let borrow_b : Int := if digit1a < digit2 then 1 else borrow_a
      sub_loop t1 temp2.tail borrow_b (dl_insert_first res (digit1b - digit2))

/-- `sub_number(&head1, &tail1, &head2, &tail2, &head3, &tail3, op1, op2)`:
returns `is_negative`, the caller's two operand references as the call leaves
them, and the result list `head3`. -/
def sub_number (l1 l2 l3 : List Int) : Int × List Int × List Int × List Int :=
  let c := compare_numbers l1 l2
  let is_negative := c.1
  let h1 := c.2.1
  let h2 := c.2.2
  let res := sub_loop h1.reverse h2.reverse 0 l3
  (is_negative, h1, h2, trim_leading_zeroes res)

/-! ## Multiplication (`multiplication.c`) -/

/-- Inner `for (j = 0; digit2_ptr != NULL; ...)` loop:
`result_array[i + j] += digit1 * digit2`. -/
def mul_inner (digit1 : Int) (i : Nat) : List Int → Nat → List Int → List Int
  | [], _, arr => arr
  | d2 :: t2, j, arr =>
      mul_inner digit1 i t2 (j + 1) (arr.set (i + j) (arr.getD (i + j) 0 + digit1 * d2))

/-- Outer `for (i = 0; digit1_ptr != NULL; ...)` loop; `rev2` is the second
operand from its tail. -/
def mul_outer (rev2 : List Int) : List Int → Nat → List Int → List Int
  | [], _, arr => arr
  | d1 :: t1, i, arr => mul_outer rev2 t1 (i + 1) (mul_inner d1 i rev2 0 arr)

/-- Step 4, `for (i = 0; i < len1 + len2; i++)`: add the carry to the cell,
keep `% 10` in the cell and pass `/ 10` on.  Returns the cells and the carry
left after the last one. -/
def mul_carry : List Int → Int → List Int × Int
  | [], carry => ([], carry)
  | c :: rest, carry =>
      let cell := c + carry
      let r := mul_carry rest (Int.tdiv cell 10)
      (Int.tmod cell 10 :: r.1, r.2)

/-- Step 5, `while (first_digit_index > 0 && result_array[first_digit_index] == 0)
first_digit_index--;` started at the given index. -/
def mul_first_digit (arr : List Int) : Nat → Nat
  | 0 => 0
  | k + 1 => if arr.getD (k + 1) 0 = 0 then mul_first_digit arr k else k + 1

/-- Step 6, `for (; first_digit_index >= 0; first_digit_index--)
dl_insert_last(head3, tail3, result_array[first_digit_index]);` with
`n = first_digit_index + 1` cells left to emit. -/
def mul_emit (arr : List Int) : Nat → List Int → List Int
  | 0, res => res
  | k + 1, res => mul_emit arr k (dl_insert_last res (arr.getD k 0))

/-- The cells of `result_array` after steps 3 and 4, with the carry that
leaves the last cell. -/
def mul_cells (l1 l2 : List Int) : List Int × Int :=
  let len1 := get_list_length l1
  let len2 := get_list_length l2
  mul_carry (mul_outer l2.reverse l1.reverse 0 (List.replicate (len1 + len2) 0)) 0

/-- `mul_number(&head1, &tail1, &head2, &tail2, &head3, &tail3)`: returns the
status and the result list `head3`.  With two empty operands
`first_digit_index` starts at `-1` and neither step 5 nor step 6 runs. -/
def mul_number (l1 l2 l3 : List Int) : Int × List Int :=
  let len1 := get_list_length l1
  let len2 := get_list_length l2
  let arr := (mul_cells l1 l2).1
  if len1 + len2 = 0 then (SUCCESS, l3)
  else
    let first_digit_index := mul_first_digit arr (len1 + len2 - 1)
    (SUCCESS, mul_emit arr (first_digit_index + 1) l3)

/-- The cells of `result_array` after step 3 (all digit products accumulated,
no carry propagated yet). -/
def mul_products (l1 l2 : List Int) : List Int :=
  let len1 := get_list_length l1
  let len2 := get_list_length l2
  mul_outer l2.reverse l1.reverse 0 (List.replicate (len1 + len2) 0)

/-- The values that `result_array[i]` takes in step 4 right after
`result_array[i] += carry;`, cell by cell from index `0`. -/
def mul_carry_sums : List Int → Int → List Int
  | [], _ => []
  | c :: rest, carry =>
      let cell := c + carry
      cell :: mul_carry_sums rest (Int.tdiv cell 10)

/-! ## Division (`division.c`) -/

/-- The digit-by-digit `while (ptr1 != NULL && ptr2 != NULL)` loop of
`is_greater_or_equal`. -/
def ge_loop : List Int → List Int → Int
  | d1 :: t1, d2 :: t2 =>
      if d1 > d2 then 1
      else if d1 < d2 then 0
      else ge_loop t1 t2
  | _, _ => 1

/-- `is_greater_or_equal(head1, head2)`. -/
def is_greater_or_equal (l1 l2 : List Int) : Int :=
  let len1 := get_list_length l1
  let len2 := get_list_length l2
  if len1 > len2 then 1
  else if len1 < len2 then 0
  else ge_loop l1 l2

/-- The `while (temp1 != NULL)` loop of `subtract_lists`. -/
def subtract_loop : List Int → List Int → Int → List Int → List Int
  | [], _, _, res => res
  | d1 :: t1, temp2, borrow, res =>
      let digit2 : Int := match temp2 with
        | [] => 0
        | d2 :: _ => d2
      let digit1a : Int := if borrow ≠ 0 then d1 - 1 else d1
      let borrow_a : Int := if borrow ≠ 0 then 0 else borrow
      let digit1b : Int := if digit1a < digit2 then digit1a + 10 else digit1a
      let borrow_b : Int := if digit1a < digit2 then 1 else borrow_a
      subtract_loop t1 temp2.tail borrow_b (dl_insert_first res (digit1b - digit2))

/-- `subtract_lists(&head1, &tail1, &head2, &tail2, &result_head, &result_tail)`:
the result list is cleared, filled from the least significant digit, trimmed. -/
def subtract_lists (l1 l2 result : List Int) : List Int :=
  let cleared := dl_delete_list result
  trim_leading_zeroes (subtract_loop l1.reverse l2.reverse 0 cleared)

/-- The `while (is_greater_or_equal(current_partial_head, *head2))` loop of
`div_number`: returns the partial remainder it ends with and `quotient_digit`,
or `none` when `fuel` iterations were not enough. -/
def div_search : Nat → List Int → List Int → Int → Option (List Int × Int)
  | fuel, cur, divisor, quotient_digit =>
    if is_greater_or_equal cur divisor ≠ 0 then
      match fuel with
      | 0 => none
      | f + 1 =>
          let temp_result := subtract_lists cur divisor []
          div_search f (copy_list temp_result) divisor (quotient_digit + 1)
    else some (cur, quotient_digit)

/-- The `while (dividend_ptr != NULL)` digit walk of `div_number`: arguments are
the dividend digits still to bring down, the divisor, the current partial
remainder and the quotient list; returns the last two. -/
def div_walk (fuel : Nat) (divisor : List Int) :
    List Int → List Int → List Int → Option (List Int × List Int)
  | [], cur, quot => some (cur, quot)
  | d :: rest, cur, quot =>
      let cur1 := trim_leading_zeroes (dl_insert_last cur d)
      if is_greater_or_equal cur1 divisor = 0 then
        div_walk fuel divisor rest cur1 (dl_insert_last quot 0)
      else
        match div_search fuel cur1 divisor 0 with
        | none => none
        | some r => div_walk fuel divisor rest r.1 (dl_insert_last quot r.2)

/-- `div_number(&head1, ..., &head3, &tail3, &remainder_head, &remainder_tail, ch)`:
returns the status, the list `head3` and the remainder list; `none` when a
repeated-subtraction loop needs more than `fuel` iterations. -/
def div_number (fuel : Nat) (l1 l2 l3 remainder : List Int) (ch : Char) :
    Option (Int × List Int × List Int) :=
  if l2 = [] ∨ (l2.head? = some 0 ∧ l2.tail = []) then
    some (FAILURE, l3, remainder)
  else
    let q0 := dl_delete_list l3
    if is_greater_or_equal l1 l2 = 0 then
      let q1 := if ch = '%' then copy_list l1 else dl_insert_last q0 0
      some (SUCCESS, q1, copy_list l1)
    else
      match div_walk fuel l2 l1 [] q0 with
      | none => none
      | some r =>
          let quot := trim_leading_zeroes r.2
          let rem := trim_leading_zeroes (copy_list r.1)
          let res := if ch = '%' then copy_list rem else quot
          some (SUCCESS, res, rem)

/-! ## The operator dispatch (`main.c`, step 5) -/

/-- The variables of `main` that its `switch (operator)` reads or writes.
`returned` is `some c` when the `switch` leaves `main` with `return c`;
`remainder_head` is the remainder list as the division case prints it, before
that case frees it. -/
structure MainState where
  operator : Char
  head1 : List Int
  head2 : List Int
  head3 : List Int
  result_sign : Int
  remainder_head : List Int
  quotient_has_minus : Bool
  remainder_has_minus : Bool
  returned : Option Int

/-- The sign chosen after `sub_number` in the `+` and `-` cases:
`(sign1 == 1) ? (is_negative ? -1 : 1) : (is_negative ? 1 : -1)`. -/
def sub_result_sign (sign1 is_negative : Int) : Int :=
  if sign1 = 1 then (if is_negative ≠ 0 then -1 else 1)
  else (if is_negative ≠ 0 then 1 else -1)

/-- The `switch (operator)` of `main`, entered with `head3 = NULL` and
`result_sign = 1`; `sign1`, `sign2` and the two lists come from `stored_num`.
`none` only when `div_number` runs out of fuel. -/
def main_switch (fuel : Nat) (operator : Char) (sign1 sign2 : Int)
    (head1 head2 : List Int) : Option MainState :=
  let head3 : List Int := []
  if operator = '+' then
    if sign1 = sign2 then
      let r := add_number head1 head2 head3
      some ⟨operator, head1, head2, r.2, sign1, [], false, false, none⟩
    else
      let r := sub_number head1 head2 head3
      some ⟨operator, r.2.1, r.2.2.1, r.2.2.2, sub_result_sign sign1 r.1, [], false, false, none⟩
  else if operator = '-' then
    if sign1 ≠ sign2 then
      let r := add_number head1 head2 head3
      some ⟨operator, head1, head2, r.2, sign1, [], false, false, none⟩
    else
      let r := sub_number head1 head2 head3
      some ⟨operator, r.2.1, r.2.2.1, r.2.2.2, sub_result_sign sign1 r.1, [], false, false, none⟩
  else if operator = 'x' ∨ operator = 'X' then
    let r := mul_number head1 head2 head3
    some ⟨operator, head1, head2, r.2, if sign1 = sign2 then 1 else -1, [], false, false, none⟩
  else if operator = '/' then
    match div_number fuel head1 head2 head3 [] operator with
    | none => none
    | some r =>
        if r.1 = FAILURE then
          some ⟨operator, dl_delete_list head1, dl_delete_list head2, dl_delete_list r.2.1, 1,
            dl_delete_list r.2.2, false, false, some 1⟩
        else
          let result_sign : Int := if sign1 = sign2 then 1 else -1
          let quotient_has_minus : Bool := result_sign = -1 ∧ is_zero r.2.1 = 0
          let remainder_has_minus : Bool := sign1 = -1 ∧ is_zero r.2.2 = 0
          some ⟨' ', head1, head2, r.2.1, result_sign, r.2.2,
            quotient_has_minus, remainder_has_minus, none⟩
  else
    some ⟨operator, dl_delete_list head1, dl_delete_list head2, dl_delete_list head3, 1, [],
      false, false, some 1⟩

/-! ## Reporting the result (`main.c`, division case and step 6) -/

/-- Whether `main` prints a `"-"` in front of the digits of `head3`.  Step 6
runs when `operator != ' '` and tests `result_sign == -1 && !is_zero(head3)`;
the division case has set `operator = ' '` and printed its quotient under
`quotient_has_minus`. -/
def main_result_minus (st : MainState) : Bool :=
  if st.operator ≠ ' ' then decide (st.result_sign = -1 ∧ is_zero st.head3 = 0)
  else st.quotient_has_minus

/-- Whether the division case prints a `"-"` in front of the remainder:
`if (sign1 == -1 && !is_zero(remainder_head)) printf("-");`, the test already
held in `remainder_has_minus`.  No remainder line exists in the other cases. -/
def main_remainder_minus (st : MainState) : Bool := st.remainder_has_minus

/-! ## Strings: validation, parsing, printing (`main.c`, `function.c`)

A `char *` argument is the list of its characters before the terminating NUL;
`NULL` is `none`.  A character is compared and subtracted through its code. -/

/-- The `while (str[i] != '\0')` loop of `is_valid_number`. -/
def is_valid_number_loop : List Char → Int
  | [] => 1
  | c :: t => if c < '0' ∨ c > '9' then 0 else is_valid_number_loop t

/-- `is_valid_number(str)`. -/
def is_valid_number (str : Option (List Char)) : Int :=
  match str with
  | none => 0
  | some s =>
      if s = [] then 0
      else
        let i : Nat := if s.head? = some '-' then 1 else 0
        if i ≥ s.length then 0
        else is_valid_number_loop (s.drop i)

/-- The `while (data[i] == '0' && data[i + 1] != '\0') i++;` loop of
`stored_num`: returns the characters from the final index on. -/
def stored_num_skip : List Char → List Char
  | c :: d :: t => if c = '0' then stored_num_skip (d :: t) else c :: d :: t
  | l => l

/-- The `while (data[i] != '\0')` loop of `stored_num`:
`dl_insert_last(head, tail, data[i] - '0')`. -/
def stored_num_loop : List Char → List Int → List Int
  | [], l => l
  | c :: t, l => stored_num_loop t (dl_insert_last l ((c.toNat : Int) - ('0'.toNat : Int)))

/-- `stored_num(&head, &tail, data)`: returns the sign and the digit list. -/
def stored_num (data : List Char) : Int × List Int :=
  let neg : Bool := data.head? = some '-'
  let sign : Int := if neg then -1 else 1
  let after_sign := if neg then data.tail else data
  let l := stored_num_loop (stored_num_skip after_sign) []
  if l = [] then (sign, dl_insert_last l 0) else (sign, l)

/-- `printf("%d", d)`. -/
def print_int (d : Int) : List Char :=
  if d < 0 then '-' :: Nat.toDigits 10 d.natAbs else Nat.toDigits 10 d.toNat

/-- `print_list(head)`: every node printed with `"%d"`, head first. -/
def print_list : List Int → List Char
  | [] => []
  | d :: t => print_int d ++ print_list t

/-! ## The numeral grammar and the canonical text (specification side) -/

/-- The characters of a literal after its optional leading `'-'`. -/
def digit_run (s : List Char) : List Char :=
  if s.head? = some '-' then s.tail else s

/-- The numeral grammar of the specification: an optional leading `'-'`, then
one or more characters in `'0'..'9'`. -/
def is_literal (s : List Char) : Prop :=
  digit_run s ≠ [] ∧ ∀ c ∈ digit_run s, '0' ≤ c ∧ c ≤ '9'

instance (s : List Char) : Decidable (is_literal s) := by
  unfold is_literal; infer_instance

/-- The digit value of a character of a digit run. -/
def digit_value (c : Char) : Int := (c.toNat : Int) - 48

/-- The specification's `canonicalize`: redundant leading zeros are stripped
(a run of zeros only leaves `"0"`), and the `'-'` of a negative zero is dropped. -/
def canonicalize (s : List Char) : List Char :=
  let body := (digit_run s).dropWhile (fun c => c = '0')
  let digits := if body = [] then ['0'] else body
  if s.head? = some '-' ∧ digits ≠ ['0'] then '-' :: digits else digits

/-- The specification's `format` on the output of `stored_num`: a `'-'` exactly
when the sign is `-1` and `is_zero` answers `0`, then the digits as `print_list`
emits them. -/
def format_number (p : Int × List Int) : List Char :=
  (if p.1 = -1 ∧ is_zero p.2 = 0 then ['-'] else []) ++ print_list p.2

/-! ## Decimal value: basic facts -/

/-- Decimal value of a digit list read from its least significant end. -/
def value_le : List Int → Int
  | [] => 0
  | d :: t => d + 10 * value_le t

/-- All cells are non-negative. -/
def cells_nonneg (arr : List Int) : Prop := ∀ c ∈ arr, 0 ≤ c

instance (arr : List Int) : Decidable (cells_nonneg arr) := by
  unfold cells_nonneg; infer_instance

/-- The invariant of the outer loop before the pass for digit `i` of the
first operand, `L` being the length of the second. -/
def cells_bounded (i L : Nat) (arr : List Int) : Prop :=
  ∀ k : Nat, 0 ≤ arr.getD k 0 ∧ arr.getD k 0 ≤ 81 * ((min i L : Nat) : Int) ∧
    arr.getD k 0 ≤ 81 * ((i + L - 1 - k : Nat) : Int)

theorem value_nil : value [] = 0 := rfl

theorem value_append_singleton (l : List Int) (d : Int) :
    value (l ++ [d]) = 10 * value l + d := by
  simp [value, List.foldl_append]

theorem foldl_value_init (l : List Int) (i : Int) :
    l.foldl (fun acc d => 10 * acc + d) i = i * 10 ^ l.length + value l := by
  induction l generalizing i with
  | nil => simp [value]
  | cons d t ih =>
    simp only [List.foldl_cons, List.length_cons, value]
    rw [ih (10 * i + d), ih (10 * 0 + d)]
    ring

theorem value_cons (d : Int) (l : List Int) :
    value (d :: l) = d * 10 ^ l.length + value l := by
  have h := foldl_value_init l (10 * 0 + d)
  simp only [value, List.foldl_cons]
  rw [h]
  simp [value]

theorem value_append (p l : List Int) :
    value (p ++ l) = value p * 10 ^ l.length + value l := by
  simp only [value, List.foldl_append]
  exact foldl_value_init l _

theorem value_le_reverse (l : List Int) : value_le l.reverse = value l := by
  induction l using List.reverseRecOn with
  | nil => rfl
  | append_singleton t d ih =>
    have hrev : (t ++ [d]).reverse = d :: t.reverse := by simp
    rw [hrev, value_append_singleton, value_le, ih]; ring

theorem value_reverse (l : List Int) : value l.reverse = value_le l := by
  have h := value_le_reverse l.reverse
  rw [List.reverse_reverse] at h
  exact h.symm

/-! ## Addition -/

theorem update_result_add_spec (res : List Int) (s : Int) :
    ∃ d c, update_result_add res s = (d :: res, c) ∧ d + 10 * c = s := by
  unfold update_result_add dl_insert_first
  by_cases h : s > 9
  · exact ⟨Int.tmod s 10, Int.tdiv s 10, by simp [h], Int.tmod_add_tdiv s 10⟩
  · exact ⟨s, 0, by simp [h], by ring⟩

theorem add_loop_value (x y : List Int) (c : Int) (res : List Int) :
    value (add_loop x y c res).1
        + (add_loop x y c res).2 * 10 ^ (add_loop x y c res).1.length
      = value res + (c + value_le x + value_le y) * 10 ^ res.length := by
  induction x, y, c, res using add_loop.induct with
  | case1 c res => simp [add_loop, value_le]
  | case2 d1 t1 c res r ih =>
    obtain ⟨d, c1, hr, hs⟩ := update_result_add_spec res (c + d1)
    rw [add_loop]
    simp only [r, hr] at ih ⊢
    rw [ih, value_cons]
    simp only [List.length_cons, value_le, pow_succ]
    have : d1 = d + 10 * c1 - c := by linarith
    rw [this]; ring
  | case3 d2 t2 c res r ih =>
    obtain ⟨d, c1, hr, hs⟩ := update_result_add_spec res (c + d2)
    rw [add_loop]
    simp only [r, hr] at ih ⊢
    rw [ih, value_cons]
    simp only [List.length_cons, value_le, pow_succ]
    have : d2 = d + 10 * c1 - c := by linarith
    rw [this]; ring
  | case4 d1 t1 d2 t2 c res r ih =>
    obtain ⟨d, c1, hr, hs⟩ := update_result_add_spec res (c + d1 + d2)
    rw [add_loop]
    simp only [r, hr] at ih ⊢
    rw [ih, value_cons]
    simp only [List.length_cons, value_le, pow_succ]
    have : d2 = d + 10 * c1 - c - d1 := by linarith
    rw [this]; ring

theorem add_number_sum (a b : List Int) :
    value (add_number a b []).2 = value a + value b := by
  have h := add_loop_value a.reverse b.reverse 0 []
  rw [value_le_reverse, value_le_reverse] at h
  simp only [value_nil, List.length_nil, pow_zero, mul_one, zero_add] at h
  unfold add_number
  by_cases hc : (add_loop a.reverse b.reverse 0 []).2 ≠ 0
  · simp only [hc, ne_eq, not_false_eq_true, if_true, dl_insert_first, value_cons]
    linarith
  · simp only [hc, if_false]
    have h0 : (add_loop a.reverse b.reverse 0 []).2 = 0 := not_not.mp hc
    rw [h0] at h
    linarith

theorem add_number_status (a b l3 : List Int) : (add_number a b l3).1 = SUCCESS := by
  unfold add_number
  by_cases hc : (add_loop a.reverse b.reverse 0 l3).2 ≠ 0
  · simp only [hc, ne_eq, not_false_eq_true, if_true]
  · simp only [hc, if_false]

/-- C1: with an initially empty result list, the digit list that `add_number`
produces has decimal value `value a + value b`, and the call reports `SUCCESS`.
The identity does not depend on the entries being digits, so it holds in
particular for all digit sequences. -/
theorem add_number_value (a b : List Int) :
    (add_number a b []).1 = SUCCESS ∧ value (add_number a b []).2 = value a + value b :=
  ⟨add_number_status a b [], add_number_sum a b⟩

/-! ## Digit lists: bounds on the value -/

theorem is_digits_nil : is_digits [] := by
  intro d hd; cases hd

theorem is_digits_cons {d : Int} {t : List Int} :
    is_digits (d :: t) ↔ (0 ≤ d ∧ d ≤ 9) ∧ is_digits t := by
  simp [is_digits]

theorem is_digits_append {p q : List Int} :
    is_digits (p ++ q) ↔ is_digits p ∧ is_digits q := by
  simp only [is_digits, List.mem_append]
  constructor
  · intro h
    exact ⟨fun d hd => h d (Or.inl hd), fun d hd => h d (Or.inr hd)⟩
  · rintro ⟨h1, h2⟩ d (hd | hd)
    · exact h1 d hd
    · exact h2 d hd

theorem is_digits_reverse {l : List Int} : is_digits l.reverse ↔ is_digits l := by
  simp [is_digits]

theorem is_digits_tail {l : List Int} (h : is_digits l) : is_digits l.tail := by
  cases l with
  | nil => exact h
  | cons d t => exact (is_digits_cons.mp h).2

theorem value_le_nonneg {l : List Int} (h : is_digits l) : 0 ≤ value_le l := by
  induction l with
  | nil => simp [value_le]
  | cons d t ih =>
    obtain ⟨hd, ht⟩ := is_digits_cons.mp h
    have := ih ht
    simp only [value_le]; omega

theorem value_le_lt_pow {l : List Int} (h : is_digits l) : value_le l < 10 ^ l.length := by
  induction l with
  | nil => simp [value_le]
  | cons d t ih =>
    obtain ⟨hd, ht⟩ := is_digits_cons.mp h
    have := ih ht
    simp only [value_le, List.length_cons, pow_succ]; omega

theorem value_nonneg {l : List Int} (h : is_digits l) : 0 ≤ value l := by
  rw [← value_le_reverse]; exact value_le_nonneg (is_digits_reverse.mpr h)

theorem value_lt_pow {l : List Int} (h : is_digits l) : value l < 10 ^ l.length := by
  rw [← value_le_reverse, ← List.length_reverse l]
  exact value_le_lt_pow (is_digits_reverse.mpr h)

theorem value_le_take_drop (l : List Int) (n : Nat) :
    value_le l = value_le (l.take n) + 10 ^ n * value_le (l.drop n) := by
  induction l generalizing n with
  | nil => simp [value_le]
  | cons d t ih =>
    cases n with
    | zero => simp [value_le]
    | succ k =>
      simp only [List.take_succ_cons, List.drop_succ_cons, value_le, pow_succ]
      rw [ih k]; ring

/-- A digit list with a non-zero leading digit is at least `10 ^ (length - 1)`. -/
theorem pow_le_value_cons {d : Int} {t : List Int} (h : is_digits (d :: t)) (hd : d ≠ 0) :
    (10 : Int) ^ t.length ≤ value (d :: t) := by
  obtain ⟨hd9, ht⟩ := is_digits_cons.mp h
  have h1 : 1 ≤ d := by omega
  have h2 := value_nonneg ht
  have h3 : (0 : Int) < 10 ^ t.length := by positivity
  rw [value_cons]
  nlinarith

theorem normalized_cons_cons {d e : Int} {t : List Int} (h : normalized (d :: e :: t)) :
    d ≠ 0 := by
  intro hd
  have := h.2.2 (by simp [hd])
  simp at this

/-- A normalized list other than `[0]` has a non-zero head. -/
theorem normalized_head_ne_zero {d : Int} {t : List Int} (h : normalized (d :: t))
    (hz : d :: t ≠ [0]) : d ≠ 0 := by
  intro hd
  exact hz (h.2.2 (by simp [hd]))

theorem normalized_pos {l : List Int} (h : normalized l) (hz : l ≠ [0]) : 0 < value l := by
  cases l with
  | nil => exact absurd rfl h.1
  | cons d t =>
    have := pow_le_value_cons h.2.1 (normalized_head_ne_zero h hz)
    have h3 : (0 : Int) < 10 ^ t.length := by positivity
    omega

/-! ## `trim_leading_zeroes` -/

theorem trim_value (l : List Int) : value (trim_leading_zeroes l) = value l := by
  induction l using trim_leading_zeroes.induct with
  | case1 => rfl
  | case2 d => rfl
  | case3 e t ih =>
    rw [trim_leading_zeroes, if_pos rfl, ih, value_cons 0]; simp
  | case4 d e t hd =>
    rw [trim_leading_zeroes, if_neg hd]

theorem trim_is_digits {l : List Int} (h : is_digits l) : is_digits (trim_leading_zeroes l) := by
  induction l using trim_leading_zeroes.induct with
  | case1 => exact h
  | case2 d => exact h
  | case3 e t ih =>
    rw [trim_leading_zeroes, if_pos rfl]; exact ih (is_digits_cons.mp h).2
  | case4 d e t hd =>
    rw [trim_leading_zeroes, if_neg hd]; exact h

theorem trim_ne_nil {l : List Int} (h : l ≠ []) : trim_leading_zeroes l ≠ [] := by
  induction l using trim_leading_zeroes.induct with
  | case1 => exact h
  | case2 d => simp [trim_leading_zeroes]
  | case3 e t ih =>
    rw [trim_leading_zeroes, if_pos rfl]; exact ih (by simp)
  | case4 d e t hd =>
    rw [trim_leading_zeroes, if_neg hd]; simp

theorem trim_head (l : List Int) :
    (trim_leading_zeroes l).head? = some 0 → trim_leading_zeroes l = [0] := by
  induction l using trim_leading_zeroes.induct with
  | case1 => simp [trim_leading_zeroes]
  | case2 d => simp [trim_leading_zeroes]
  | case3 e t ih =>
    rw [trim_leading_zeroes, if_pos rfl]; exact ih
  | case4 d e t hd =>
    rw [trim_leading_zeroes, if_neg hd]
    intro h; simp at h; exact absurd h hd

theorem trim_normalized {l : List Int} (hne : l ≠ []) (h : is_digits l) :
    normalized (trim_leading_zeroes l) :=
  ⟨trim_ne_nil hne, trim_is_digits h, trim_head l⟩

theorem trim_of_normalized {l : List Int} (h : normalized l) : trim_leading_zeroes l = l := by
  cases l with
  | nil => rfl
  | cons d t =>
    cases t with
    | nil => rfl
    | cons e t =>
      rw [trim_leading_zeroes, if_neg (normalized_cons_cons h)]

theorem copy_list_loop_eq (src dest : List Int) : copy_list_loop src dest = dest ++ src := by
  induction src generalizing dest with
  | nil => simp [copy_list_loop]
  | cons d t ih => simp [copy_list_loop, dl_insert_last, ih]

theorem copy_list_eq (src : List Int) : copy_list src = src := by
  simp [copy_list, copy_list_loop_eq]

/-! ## The comparators -/

theorem ge_loop_spec (x y : List Int) (hlen : x.length = y.length)
    (hx : is_digits x) (hy : is_digits y) :
    (ge_loop x y = 1 ∧ value y ≤ value x) ∨ (ge_loop x y = 0 ∧ value x < value y) := by
  induction x generalizing y with
  | nil =>
    cases y with
    | nil => left; simp [ge_loop]
    | cons e u => simp at hlen
  | cons d t ih =>
    cases y with
    | nil => simp at hlen
    | cons e u =>
      have hl : t.length = u.length := by simpa using hlen
      obtain ⟨hd, ht⟩ := is_digits_cons.mp hx
      obtain ⟨he, hu⟩ := is_digits_cons.mp hy
      have ht0 := value_nonneg ht
      have hu0 := value_nonneg hu
      have ht1 := value_lt_pow ht
      have hu1 := value_lt_pow hu
      rw [hl] at ht1
      have hp : (0 : Int) < 10 ^ u.length := by positivity
      rw [value_cons, value_cons, hl, ge_loop]
      by_cases h1 : d > e
      · left
        refine ⟨by simp [h1], ?_⟩
        have : (e + 1) * 10 ^ u.length ≤ d * 10 ^ u.length :=
          mul_le_mul_of_nonneg_right (by omega) hp.le
        nlinarith
      · by_cases h2 : d < e
        · right
          refine ⟨by simp [h1, h2], ?_⟩
          have : (d + 1) * 10 ^ u.length ≤ e * 10 ^ u.length :=
            mul_le_mul_of_nonneg_right (by omega) hp.le
          nlinarith
        · have hde : d = e := by omega
          simp only [h1, h2, if_false]
          rcases ih u hl ht hu with ⟨h, hv⟩ | ⟨h, hv⟩
          · left; exact ⟨h, by rw [hde]; omega⟩
          · right; exact ⟨h, by rw [hde]; omega⟩

/-- When `is_greater_or_equal` answers `0` against a normalized non-zero
second operand, the first operand is numerically smaller. -/
theorem is_ge_zero_lt {x y : List Int} (hx : is_digits x) (hy : normalized y)
    (hyz : y ≠ [0]) (h : is_greater_or_equal x y = 0) : value x < value y := by
  unfold is_greater_or_equal get_list_length at h
  by_cases h1 : x.length > y.length
  · simp [h1] at h
  · by_cases h2 : x.length < y.length
    · cases y with
      | nil => exact absurd rfl hy.1
      | cons e u =>
        have hpw := pow_le_value_cons hy.2.1 (normalized_head_ne_zero hy hyz)
        have hxl := value_lt_pow hx
        have hle : (10 : Int) ^ x.length ≤ 10 ^ u.length :=
          pow_le_pow_right₀ (by norm_num) (by simp at h2; omega)
        omega
    · simp only [h1, h2, if_false] at h
      rcases ge_loop_spec x y (by omega) hx hy.2.1 with ⟨hg, _⟩ | ⟨_, hv⟩
      · rw [hg] at h; exact absurd h (by decide)
      · exact hv

/-- On normalized operands `is_greater_or_equal` decides numeric order. -/
theorem is_ge_spec {x y : List Int} (hx : normalized x) (hy : normalized y) :
    (is_greater_or_equal x y = 1 ∧ value y ≤ value x) ∨
      (is_greater_or_equal x y = 0 ∧ value x < value y) := by
  unfold is_greater_or_equal get_list_length
  by_cases h1 : x.length > y.length
  · left
    refine ⟨by simp [h1], ?_⟩
    cases x with
    | nil => simp at h1
    | cons d t =>
      cases t with
      | nil =>
        simp at h1
        exact absurd h1 hy.1
      | cons e u =>
        have hpw := pow_le_value_cons hx.2.1 (normalized_cons_cons hx)
        have hyl := value_lt_pow hy.2.1
        have hle : (10 : Int) ^ y.length ≤ 10 ^ (e :: u).length :=
          pow_le_pow_right₀ (by norm_num) (by simp at h1 ⊢; omega)
        omega
  · by_cases h2 : x.length < y.length
    · right
      refine ⟨by simp [h1, h2], ?_⟩
      cases y with
      | nil => simp at h2
      | cons d t =>
        cases t with
        | nil =>
          simp at h2
          exact absurd h2 hx.1
        | cons e u =>
          have hpw := pow_le_value_cons hy.2.1 (normalized_cons_cons hy)
          have hxl := value_lt_pow hx.2.1
          have hle : (10 : Int) ^ x.length ≤ 10 ^ (e :: u).length :=
            pow_le_pow_right₀ (by norm_num) (by simp at h2 ⊢; omega)
          omega
    · simp only [h1, h2, if_false]
      exact ge_loop_spec x y (by omega) hx.2.1 hy.2.1

theorem compare_loop_eq (l1 l2 x y : List Int) :
    compare_loop l1 l2 x y = if ge_loop x y = 0 then (1, l2, l1) else (0, l1, l2) := by
  induction x generalizing y with
  | nil => simp [compare_loop, ge_loop]
  | cons d t ih =>
    cases y with
    | nil => simp [compare_loop, ge_loop]
    | cons e u =>
      rw [compare_loop, ge_loop]
      by_cases h1 : d < e
      · have h2 : ¬ d > e := by omega
        simp [h1, h2, swap_lists]
      · by_cases h2 : d > e
        · simp [h1, h2]
        · simp only [h1, h2, if_false]; exact ih u

theorem compare_numbers_eq (l1 l2 : List Int) :
    compare_numbers l1 l2 =
      if is_greater_or_equal l1 l2 = 0 then (1, l2, l1) else (0, l1, l2) := by
  unfold compare_numbers is_greater_or_equal
  simp only []
  by_cases h1 : get_list_length l1 < get_list_length l2
  · have h2 : ¬ get_list_length l1 > get_list_length l2 := by omega
    simp [h1, h2, swap_lists]
  · by_cases h2 : get_list_length l1 > get_list_length l2
    · simp [h1, h2]
    · simp only [h1, h2, if_false]; exact compare_loop_eq l1 l2 l1 l2

/-! ## The borrow loops -/

theorem sub_loop_cons (d : Int) (t y : List Int) (b : Int) (res : List Int) :
    sub_loop (d :: t) y b res =
      sub_loop t y.tail
        (if (if b = 1 then d - 1 else d) < y.headD 0 then 1 else if b = 1 then 0 else b)
        (dl_insert_first res
          ((if (if b = 1 then d - 1 else d) < y.headD 0 then (if b = 1 then d - 1 else d) + 10
            else if b = 1 then d - 1 else d) - y.headD 0)) := by
  cases y <;> rfl

theorem subtract_loop_cons (d : Int) (t y : List Int) (b : Int) (res : List Int) :
    subtract_loop (d :: t) y b res =
      subtract_loop t y.tail
        (if (if b ≠ 0 then d - 1 else d) < y.headD 0 then 1 else if b ≠ 0 then 0 else b)
        (dl_insert_first res
          ((if (if b ≠ 0 then d - 1 else d) < y.headD 0 then (if b ≠ 0 then d - 1 else d) + 10
            else if b ≠ 0 then d - 1 else d) - y.headD 0)) := by
  cases y <;> rfl

theorem sub_loop_eq_subtract_loop (x y : List Int) (b : Int) (res : List Int)
    (hb : b = 0 ∨ b = 1) : sub_loop x y b res = subtract_loop x y b res := by
  induction x generalizing y b res with
  | nil => simp [sub_loop, subtract_loop]
  | cons d t ih =>
    rw [sub_loop_cons, subtract_loop_cons]
    rcases hb with rfl | rfl
    · simp only [zero_ne_one, if_false, ne_eq, not_true_eq_false]
      apply ih
      by_cases h : d < y.headD 0
      · right; rw [if_pos h]
      · left; rw [if_neg h]
    · simp only [if_true, ne_eq, one_ne_zero, not_false_eq_true]
      apply ih
      by_cases h : d - 1 < y.headD 0
      · right; rw [if_pos h]
      · left; rw [if_neg h]

/-- What the borrow loop computes: it puts `x.length` digits `p` in front of
the result list, and with the borrow `bout` that is left over
`p + (the low x.length digits of y) + b = x + bout * 10 ^ x.length`. -/
theorem subtract_loop_spec (x y : List Int) (b : Int) (res : List Int)
    (hx : is_digits x) (hy : is_digits y) (hb : b = 0 ∨ b = 1) :
    ∃ p bout, subtract_loop x y b res = p ++ res ∧ p.length = x.length ∧ is_digits p ∧
      (bout = 0 ∨ bout = 1) ∧
      value p + value_le (y.take x.length) + b = value_le x + bout * 10 ^ x.length := by
  induction x generalizing y b res with
  | nil =>
    exact ⟨[], b, by simp [subtract_loop], rfl, is_digits_nil, hb, by simp [value, value_le]⟩
  | cons d t ih =>
    obtain ⟨hd, ht⟩ := is_digits_cons.mp hx
    -- the digit of `y` at this position, and what is left of `y`
    obtain ⟨e, he, hye⟩ : ∃ e : Int, (0 ≤ e ∧ e ≤ 9) ∧ y.headD 0 = e ∧
        value_le (y.take (t.length + 1)) = e + 10 * value_le (y.tail.take t.length) := by
      cases y with
      | nil => exact ⟨0, by omega, rfl, by simp [value_le]⟩
      | cons e u => exact ⟨e, (is_digits_cons.mp hy).1, rfl, by simp [value_le]⟩
    obtain ⟨hye1, hye2⟩ := hye
    have hb1 : (if b ≠ 0 then d - 1 else d) = d - b := by
      rcases hb with rfl | rfl <;> simp
    rw [subtract_loop_cons]
    simp only [hye1, hb1]
    by_cases hlt : d - b < e
    · simp only [hlt, if_true]
      obtain ⟨p, bout, hp, hlen, hpd, hbo, hv⟩ :=
        ih y.tail 1 (dl_insert_first res (d - b + 10 - e)) ht (is_digits_tail hy) (Or.inr rfl)
      refine ⟨p ++ [d - b + 10 - e], bout, ?_, by simp [hlen], ?_, hbo, ?_⟩
      · rw [hp]; simp [dl_insert_first]
      · rw [is_digits_append]
        refine ⟨hpd, ?_⟩
        intro z hz
        simp only [List.mem_singleton] at hz
        rcases hb with rfl | rfl <;> omega
      · rw [value_append_singleton, List.length_cons, hye2]
        simp only [value_le, pow_succ]
        linarith
    · simp only [hlt, if_false]
      have hb0 : (if b ≠ 0 then (0 : Int) else b) = 0 := by
        rcases hb with rfl | rfl <;> simp
      rw [hb0]
      obtain ⟨p, bout, hp, hlen, hpd, hbo, hv⟩ :=
        ih y.tail 0 (dl_insert_first res (d - b - e)) ht (is_digits_tail hy) (Or.inl rfl)
      refine ⟨p ++ [d - b - e], bout, ?_, by simp [hlen], ?_, hbo, ?_⟩
      · rw [hp]; simp [dl_insert_first]
      · rw [is_digits_append]
        refine ⟨hpd, ?_⟩
        intro z hz
        simp only [List.mem_singleton] at hz
        rcases hb with rfl | rfl <;> omega
      · rw [value_append_singleton, List.length_cons, hye2]
        simp only [value_le, pow_succ]
        linarith

/-- A digit list no larger than `a` has nothing but zeros above `a`'s length,
so its low `a.length` digits carry its whole value. -/
theorem value_le_take_of_le {x y : List Int} (hx : is_digits x) (hy : is_digits y)
    (h : value_le y ≤ value_le x) : value_le (y.take x.length) = value_le y := by
  have hsplit := value_le_take_drop y x.length
  have hlo : 0 ≤ value_le (y.take x.length) :=
    value_le_nonneg (fun d hd => hy d (List.mem_of_mem_take hd))
  have hhi : 0 ≤ value_le (y.drop x.length) :=
    value_le_nonneg (fun d hd => hy d (List.mem_of_mem_drop hd))
  have hxl := value_le_lt_pow hx
  have hp : (0 : Int) < 10 ^ x.length := by positivity
  by_contra hne
  have hpos : 1 ≤ value_le (y.drop x.length) := by
    rcases lt_or_ge 0 (value_le (y.drop x.length)) with h1 | h1
    · omega
    · have h0 : value_le (y.drop x.length) = 0 := by omega
      rw [h0] at hsplit
      exact absurd (by omega) hne
  have : (10 : Int) ^ x.length * 1 ≤ 10 ^ x.length * value_le (y.drop x.length) :=
    mul_le_mul_of_nonneg_left hpos hp.le
  omega

/-- The borrow loop on ordered operands, started with no borrow and an empty
result: `a.length` digits whose value is the difference. -/
theorem subtract_loop_value {a b : List Int} (ha : is_digits a) (hb : is_digits b)
    (hle : value b ≤ value a) :
    ∃ p, subtract_loop a.reverse b.reverse 0 [] = p ∧ p.length = a.length ∧ is_digits p ∧
      value p = value a - value b := by
  obtain ⟨p, bout, hp, hlen, hpd, hbo, hv⟩ :=
    subtract_loop_spec a.reverse b.reverse 0 [] (is_digits_reverse.mpr ha)
      (is_digits_reverse.mpr hb) (Or.inl rfl)
  have hle2 : value_le b.reverse ≤ value_le a.reverse := by
    rw [value_le_reverse, value_le_reverse]; exact hle
  rw [value_le_take_of_le (is_digits_reverse.mpr ha) (is_digits_reverse.mpr hb) hle2,
    value_le_reverse, value_le_reverse, List.length_reverse] at hv
  rw [List.length_reverse] at hlen
  refine ⟨p, by simpa using hp, hlen, hpd, ?_⟩
  have hpl := value_lt_pow hpd
  rw [hlen] at hpl
  have hb0 := value_nonneg hb
  rcases hbo with rfl | rfl
  · linarith
  · exfalso; linarith

/-! ## `subtract_lists` and `sub_number` -/

theorem subtract_lists_spec {a b : List Int} (r : List Int) (hne : a ≠ [])
    (ha : is_digits a) (hb : is_digits b) (hle : value b ≤ value a) :
    value (subtract_lists a b r) = value a - value b ∧ normalized (subtract_lists a b r) := by
  obtain ⟨p, hp, hlen, hpd, hv⟩ := subtract_loop_value ha hb hle
  have hpne : p ≠ [] := by
    intro h; rw [h] at hlen
    exact hne (List.length_eq_zero.mp hlen.symm)
  unfold subtract_lists dl_delete_list
  simp only [hp]
  exact ⟨by rw [trim_value, hv], trim_normalized hpne hpd⟩

theorem sub_number_spec {a b : List Int} (ha : normalized a) (hb : normalized b) :
    (sub_number a b []).1 = (if value a < value b then 1 else 0) ∧
      value (sub_number a b []).2.2.2 = |value a - value b| ∧
      normalized (sub_number a b []).2.2.2 ∧
      (sub_number a b []).2.1 = (if value a < value b then b else a) ∧
      (sub_number a b []).2.2.1 = (if value a < value b then a else b) := by
  unfold sub_number
  simp only [compare_numbers_eq]
  rcases is_ge_spec ha hb with ⟨hg, hv⟩ | ⟨hg, hv⟩
  · have hnlt : ¬ value a < value b := by omega
    simp only [hg, one_ne_zero, if_false, hnlt]
    rw [sub_loop_eq_subtract_loop _ _ _ _ (Or.inl rfl)]
    have h := subtract_lists_spec [] ha.1 ha.2.1 hb.2.1 hv
    unfold subtract_lists dl_delete_list at h
    refine ⟨trivial, ?_, h.2, trivial, trivial⟩
    rw [h.1, abs_of_nonneg (by omega)]
  · simp only [hg, if_true, hv]
    rw [sub_loop_eq_subtract_loop _ _ _ _ (Or.inl rfl)]
    have h := subtract_lists_spec [] hb.1 hb.2.1 ha.2.1 hv.le
    unfold subtract_lists dl_delete_list at h
    refine ⟨trivial, ?_, h.2, trivial, trivial⟩
    rw [h.1, abs_of_neg (by omega)]; ring

/-- C5: under its precondition (`a` a non-empty digit sequence, `b` a digit
sequence, `value b ≤ value a`) `subtract_lists` leaves in the result list,
whatever it held before, a normalized digit list (non-empty, digits only, no
leading zero unless it is `[0]`) whose value is `value a - value b`. -/
theorem subtract_lists_correct (a b r : List Int) (hne : a ≠ []) (ha : is_digits a)
    (hb : is_digits b) (hle : value b ≤ value a) :
    value (subtract_lists a b r) = value a - value b ∧
      subtract_lists a b r ≠ [] ∧
      ((subtract_lists a b r).head? = some 0 → subtract_lists a b r = [0]) := by
  have h := subtract_lists_spec r hne ha hb hle
  exact ⟨h.1, h.2.1, h.2.2.2⟩

theorem subtract_lists_correct_witness :
    value (subtract_lists [1, 0, 0] [0, 9, 9] [7, 7]) = value [1, 0, 0] - value [0, 9, 9] ∧
      subtract_lists [1, 0, 0] [0, 9, 9] [7, 7] ≠ [] ∧
      ((subtract_lists [1, 0, 0] [0, 9, 9] [7, 7]).head? = some 0 →
        subtract_lists [1, 0, 0] [0, 9, 9] [7, 7] = [0]) :=
  subtract_lists_correct [1, 0, 0] [0, 9, 9] [7, 7] (by decide) (by decide) (by decide)
    (by decide)

/-- C4: for normalized magnitudes `a`, `b` and an initially empty result list,
`sub_number` leaves a result of value `|value a - value b|` and returns the
flag `1` exactly when `value a < value b`, and `0` otherwise (also when the two
are equal). -/
theorem sub_number_correct (a b : List Int) (ha : normalized a) (hb : normalized b) :
    value (sub_number a b []).2.2.2 = |value a - value b| ∧
      ((sub_number a b []).1 = 1 ↔ value a < value b) ∧
      ((sub_number a b []).1 = 0 ↔ ¬ value a < value b) := by
  have h := sub_number_spec ha hb
  refine ⟨h.2.1, ?_, ?_⟩
  · rw [h.1]; by_cases hlt : value a < value b <;> simp [hlt]
  · rw [h.1]; by_cases hlt : value a < value b <;> simp [hlt]

theorem sub_number_correct_witness :
    value (sub_number [5] [1, 2] []).2.2.2 = |value [5] - value [1, 2]| ∧
      ((sub_number [5] [1, 2] []).1 = 1 ↔ value [5] < value [1, 2]) ∧
      ((sub_number [5] [1, 2] []).1 = 0 ↔ ¬ value [5] < value [1, 2]) :=
  sub_number_correct [5] [1, 2] (by decide) (by decide)

/-! ## Multiplication -/

theorem value_le_append (p q : List Int) :
    value_le (p ++ q) = value_le p + 10 ^ p.length * value_le q := by
  induction p with
  | nil => simp [value_le]
  | cons d t ih =>
    show value_le (d :: (t ++ q)) = _
    rw [value_le, value_le, ih, List.length_cons, pow_succ]; ring

theorem value_le_replicate_zero (n : Nat) : value_le (List.replicate n 0) = 0 := by
  induction n with
  | zero => rfl
  | succ k ih => simp [List.replicate_succ, value_le, ih]

theorem value_le_set_add (arr : List Int) (k : Nat) (x : Int) (hk : k < arr.length) :
    value_le (arr.set k (arr.getD k 0 + x)) = value_le arr + x * 10 ^ k := by
  induction arr generalizing k with
  | nil => simp at hk
  | cons c rest ih =>
    cases k with
    | zero => simp [value_le]; ring
    | succ j =>
      have hj : j < rest.length := by simpa using hk
      have hget : (c :: rest).getD (j + 1) 0 = rest.getD j 0 := by simp
      rw [hget, List.set_cons_succ, value_le, value_le, ih j hj, pow_succ]; ring

theorem cells_nonneg_set_add (arr : List Int) (k : Nat) (x : Int) (hx : 0 ≤ x)
    (h : cells_nonneg arr) : cells_nonneg (arr.set k (arr.getD k 0 + x)) := by
  intro c hc
  rcases List.mem_or_eq_of_mem_set hc with h1 | h1
  · exact h c h1
  · rw [h1]
    have : 0 ≤ arr.getD k 0 := by
      rw [List.getD_eq_getElem?_getD]
      cases hq : arr[k]? with
      | none => simp
      | some v => simpa using h v (List.getElem?_mem hq)
    omega

theorem mul_inner_spec (d : Int) (i : Nat) (ys : List Int) (j : Nat) (arr : List Int)
    (hlen : i + j + ys.length ≤ arr.length) :
    (mul_inner d i ys j arr).length = arr.length ∧
      value_le (mul_inner d i ys j arr) = value_le arr + d * value_le ys * 10 ^ (i + j) := by
  induction ys generalizing j arr with
  | nil => simp [mul_inner, value_le]
  | cons e u ih =>
    simp only [List.length_cons] at hlen
    rw [mul_inner]
    obtain ⟨h1, h2⟩ := ih (j + 1) (arr.set (i + j) (arr.getD (i + j) 0 + d * e))
      (by rw [List.length_set]; omega)
    rw [List.length_set] at h1
    refine ⟨h1, ?_⟩
    rw [h2, value_le_set_add arr (i + j) (d * e) (by omega), value_le, ← Nat.add_assoc, pow_succ]
    ring

theorem mul_inner_nonneg (d : Int) (i : Nat) (ys : List Int) (j : Nat) (arr : List Int)
    (hd : 0 ≤ d) (hys : is_digits ys) (h : cells_nonneg arr) :
    cells_nonneg (mul_inner d i ys j arr) := by
  induction ys generalizing j arr with
  | nil => simpa [mul_inner] using h
  | cons e u ih =>
    rw [mul_inner]
    obtain ⟨he, hu⟩ := is_digits_cons.mp hys
    exact ih (j + 1) _ hu (cells_nonneg_set_add arr (i + j) (d * e) (mul_nonneg hd he.1) h)

theorem mul_outer_spec (ys xs : List Int) (i : Nat) (arr : List Int)
    (hlen : i + xs.length + ys.length ≤ arr.length) :
    (mul_outer ys xs i arr).length = arr.length ∧
      value_le (mul_outer ys xs i arr) = value_le arr + value_le xs * value_le ys * 10 ^ i := by
  induction xs generalizing i arr with
  | nil => simp [mul_outer, value_le]
  | cons d t ih =>
    simp only [List.length_cons] at hlen
    rw [mul_outer]
    obtain ⟨h1, h2⟩ := mul_inner_spec d i ys 0 arr (by omega)
    obtain ⟨h3, h4⟩ := ih (i + 1) (mul_inner d i ys 0 arr) (by rw [h1]; omega)
    refine ⟨by rw [h3, h1], ?_⟩
    rw [h4, h2, value_le, Nat.add_zero, pow_succ]; ring

theorem mul_outer_nonneg (ys xs : List Int) (i : Nat) (arr : List Int)
    (hxs : is_digits xs) (hys : is_digits ys) (h : cells_nonneg arr) :
    cells_nonneg (mul_outer ys xs i arr) := by
  induction xs generalizing i arr with
  | nil => simpa [mul_outer] using h
  | cons d t ih =>
    rw [mul_outer]
    obtain ⟨hd, ht⟩ := is_digits_cons.mp hxs
    exact ih (i + 1) _ ht (mul_inner_nonneg d i ys 0 arr hd.1 hys h)

theorem mul_carry_spec (arr : List Int) (carry : Int) (h : cells_nonneg arr) (hc : 0 ≤ carry) :
    (mul_carry arr carry).1.length = arr.length ∧ is_digits (mul_carry arr carry).1 ∧
      0 ≤ (mul_carry arr carry).2 ∧
      value_le (mul_carry arr carry).1 + (mul_carry arr carry).2 * 10 ^ arr.length
        = value_le arr + carry := by
  induction arr generalizing carry with
  | nil => simp [mul_carry, value_le, is_digits_nil, hc]
  | cons c rest ih =>
    have hc0 : 0 ≤ c := h c (List.mem_cons_self _ _)
    have hrest : cells_nonneg rest := fun z hz => h z (List.mem_cons_of_mem _ hz)
    have hcell : 0 ≤ c + carry := by omega
    have hdiv : Int.tdiv (c + carry) 10 = (c + carry) / 10 :=
      Int.tdiv_eq_ediv hcell (by norm_num)
    have hmod : Int.tmod (c + carry) 10 = (c + carry) % 10 :=
      Int.tmod_eq_emod hcell (by norm_num)
    obtain ⟨h1, h2, h3, h4⟩ := ih (Int.tdiv (c + carry) 10) hrest (by rw [hdiv]; omega)
    simp only [mul_carry, List.length_cons, value_le, pow_succ]
    refine ⟨by rw [h1], ?_, h3, ?_⟩
    · rw [is_digits_cons]
      exact ⟨by rw [hmod]; omega, h2⟩
    · have h5 := Int.tmod_add_tdiv (c + carry) 10
      linear_combination 10 * h4 + h5

theorem cells_nonneg_replicate_zero (n : Nat) : cells_nonneg (List.replicate n 0) := by
  intro c hc
  rw [List.eq_of_mem_replicate hc]

/-- The cells after accumulation and carry propagation: `len a + len b` decimal
digits holding the product, with no carry left over. -/
theorem mul_cells_spec {a b : List Int} (ha : is_digits a) (hb : is_digits b) :
    (mul_cells a b).1.length = a.length + b.length ∧ is_digits (mul_cells a b).1 ∧
      (mul_cells a b).2 = 0 ∧ value_le (mul_cells a b).1 = value a * value b := by
  have hlen0 : (List.replicate (a.length + b.length) (0 : Int)).length = a.length + b.length :=
    List.length_replicate _ _
  obtain ⟨h1, h2⟩ := mul_outer_spec b.reverse a.reverse 0
    (List.replicate (a.length + b.length) 0) (by simp)
  have hnn := mul_outer_nonneg b.reverse a.reverse 0 (List.replicate (a.length + b.length) 0)
    (is_digits_reverse.mpr ha) (is_digits_reverse.mpr hb) (cells_nonneg_replicate_zero _)
  obtain ⟨h3, h4, h5, h6⟩ := mul_carry_spec _ 0 hnn (le_refl 0)
  rw [h2, value_le_replicate_zero, value_le_reverse, value_le_reverse, h1, hlen0] at h6
  rw [h1, hlen0] at h3
  simp only [pow_zero, mul_one, zero_add, add_zero] at h6
  unfold mul_cells get_list_length
  simp only []
  have hlo := value_le_nonneg h4
  have hhi := value_le_lt_pow h4
  rw [h3] at hhi
  have hprod : value a * value b < 10 ^ (a.length + b.length) := by
    have ha0 := value_nonneg ha
    have hb0 := value_nonneg hb
    have ha1 := value_lt_pow ha
    have hb1 := value_lt_pow hb
    have hpa : (0 : Int) < 10 ^ a.length := by positivity
    rw [pow_add]
    nlinarith
  have hp : (0 : Int) < 10 ^ (a.length + b.length) := by positivity
  have hcz : (mul_carry (mul_outer b.reverse a.reverse 0
      (List.replicate (a.length + b.length) 0)) 0).2 = 0 := by
    by_contra hne
    have h1c : 1 ≤ (mul_carry (mul_outer b.reverse a.reverse 0
        (List.replicate (a.length + b.length) 0)) 0).2 := by omega
    have := mul_le_mul_of_nonneg_right h1c hp.le
    linarith
  refine ⟨h3, h4, hcz, ?_⟩
  rw [hcz] at h6
  linarith

theorem mul_emit_eq (arr : List Int) (k : Nat) (res : List Int) (hk : k ≤ arr.length) :
    mul_emit arr k res = res ++ (arr.take k).reverse := by
  induction k generalizing res with
  | zero => simp [mul_emit]
  | succ j ih =>
    have hj : j < arr.length := hk
    have ht : List.take (j + 1) arr = List.take j arr ++ [arr.getD j 0] := by
      rw [List.take_succ, List.getD_eq_getElem?_getD, List.getElem?_eq_getElem hj]
      rfl
    rw [mul_emit, ih _ (by omega), ht, List.reverse_append]
    simp [dl_insert_last]

theorem mul_first_digit_le (arr : List Int) (k : Nat) : mul_first_digit arr k ≤ k := by
  induction k with
  | zero => simp [mul_first_digit]
  | succ j ih =>
    rw [mul_first_digit]
    split
    · omega
    · exact le_refl _

/-- Skipping the zero cells at the top does not change the value of the cells. -/
theorem mul_first_digit_value (arr : List Int) (k : Nat) :
    value_le (arr.take (mul_first_digit arr k + 1)) = value_le (arr.take (k + 1)) := by
  induction k with
  | zero => simp [mul_first_digit]
  | succ j ih =>
    rw [mul_first_digit]
    by_cases hz : arr.getD (j + 1) 0 = 0
    · rw [if_pos hz, ih, List.take_succ (n := j + 1), value_le_append]
      rw [List.getD_eq_getElem?_getD] at hz
      cases hq : arr[j + 1]? with
      | none => simp [value_le]
      | some v =>
        rw [hq] at hz
        simp only [Option.getD_some] at hz
        simp [value_le, hz]
    · rw [if_neg hz]

/-- The cell that step 5 stops at is non-zero unless it is cell `0`. -/
theorem mul_first_digit_nonzero (arr : List Int) (k : Nat) :
    mul_first_digit arr k = 0 ∨ arr.getD (mul_first_digit arr k) 0 ≠ 0 := by
  induction k with
  | zero => left; rfl
  | succ j ih =>
    rw [mul_first_digit]
    by_cases hz : arr.getD (j + 1) 0 = 0
    · rw [if_pos hz]; exact ih
    · rw [if_neg hz]; right; exact hz

theorem mul_number_spec {a b : List Int} (hne : a ≠ []) (ha : is_digits a) (hb : is_digits b) :
    (mul_number a b []).1 = SUCCESS ∧ value (mul_number a b []).2 = value a * value b := by
  obtain ⟨h1, h2, h3, h4⟩ := mul_cells_spec ha hb
  have hpos : 0 < a.length := List.length_pos.mpr hne
  have hn : ¬ (a.length + b.length = 0) := by omega
  unfold mul_number get_list_length
  simp only [hn, if_false, true_and]
  have hle := mul_first_digit_le (mul_cells a b).1 (a.length + b.length - 1)
  rw [mul_emit_eq _ _ _ (by rw [h1]; omega), List.nil_append, value_reverse,
    mul_first_digit_value]
  have hk : a.length + b.length - 1 + 1 = (mul_cells a b).1.length := by rw [h1]; omega
  rw [hk, List.take_length, h4]

/-- C2: for non-empty digit sequences `a` and `b` and an initially empty result
list, `mul_number` reports `SUCCESS` and leaves a digit list whose decimal value
is `value a * value b`. -/
theorem mul_number_value (a b : List Int) (hane : a ≠ []) (_hbne : b ≠ [])
    (ha : is_digits a) (hb : is_digits b) :
    (mul_number a b []).1 = SUCCESS ∧ value (mul_number a b []).2 = value a * value b :=
  mul_number_spec hane ha hb

theorem mul_number_value_witness :
    (mul_number [1, 2, 3] [4, 5, 6] []).1 = SUCCESS ∧
      value (mul_number [1, 2, 3] [4, 5, 6] []).2 = value [1, 2, 3] * value [4, 5, 6] :=
  mul_number_value [1, 2, 3] [4, 5, 6] (by decide) (by decide) (by decide) (by decide)

/-! ## Division -/

theorem div_search_unfold (fuel : Nat) (cur divisor : List Int) (q : Int) :
    div_search fuel cur divisor q =
      if is_greater_or_equal cur divisor ≠ 0 then
        match fuel with
        | 0 => none
        | f + 1 => div_search f (copy_list (subtract_lists cur divisor [])) divisor (q + 1)
      else some (cur, q) := by
  cases fuel <;> rfl

/-- The repeated-subtraction loop: started on a normalized partial remainder
below `(fuel + 1) * divisor`, it stops after `k ≤ fuel` subtractions with a
normalized remainder below the divisor. -/
theorem div_search_spec (fuel : Nat) (cur divisor : List Int) (q : Int)
    (hc : normalized cur) (hd : normalized divisor)
    (hfuel : value cur < (fuel + 1) * value divisor) :
    ∃ cur1 k, div_search fuel cur divisor q = some (cur1, q + k) ∧ normalized cur1 ∧
      value cur1 < value divisor ∧ value cur = k * value divisor + value cur1 ∧
      0 ≤ k ∧ k ≤ fuel := by
  induction fuel generalizing cur q with
  | zero =>
    rw [div_search_unfold]
    rcases is_ge_spec hc hd with ⟨hg, hv⟩ | ⟨hg, hv⟩
    · simp at hfuel; omega
    · rw [hg]
      exact ⟨cur, 0, by simp, hc, hv, by ring, le_refl 0, by simp⟩
  | succ f ih =>
    rw [div_search_unfold]
    rcases is_ge_spec hc hd with ⟨hg, hv⟩ | ⟨hg, hv⟩
    · rw [hg]
      simp only [ne_eq, one_ne_zero, not_false_eq_true, if_true, copy_list_eq]
      obtain ⟨hsv, hsn⟩ := subtract_lists_spec [] hc.1 hc.2.1 hd.2.1 hv
      obtain ⟨cur1, k, h1, h2, h3, h4, h5, h6⟩ := ih (subtract_lists cur divisor []) (q + 1) hsn
        (by rw [hsv]; push_cast at hfuel ⊢; linarith)
      refine ⟨cur1, k + 1, ?_, h2, h3, ?_, by omega, by push_cast; omega⟩
      · rw [h1]; congr 2; ring
      · rw [hsv] at h4; linarith
    · rw [hg]
      exact ⟨cur, 0, by simp, hc, hv, by ring, le_refl 0, by positivity⟩

/-- The digit walk: from a partial remainder below the divisor it brings down
every remaining dividend digit, appends one quotient digit in `0..9` per
dividend digit, and keeps
`quotient * divisor + partial remainder = (digits consumed so far)`. -/
theorem div_walk_spec (fuel : Nat) (divisor : List Int) (hfuel : 9 ≤ fuel)
    (hd : normalized divisor) (ds cur quot : List Int) (hds : is_digits ds)
    (hc : cur = [] ∨ normalized cur) (hlt : value cur < value divisor) :
    ∃ cur1 qs, div_walk fuel divisor ds cur quot = some (cur1, quot ++ qs) ∧
      (cur1 = [] ∨ normalized cur1) ∧ value cur1 < value divisor ∧
      is_digits qs ∧ qs.length = ds.length ∧
      value (quot ++ qs) * value divisor + value cur1
        = (value quot * value divisor + value cur) * 10 ^ ds.length + value ds := by
  induction ds generalizing cur quot with
  | nil =>
    exact ⟨cur, [], by simp [div_walk], hc, hlt, is_digits_nil, rfl, by simp [value_nil]⟩
  | cons d rest ih =>
    obtain ⟨hd9, hrest⟩ := is_digits_cons.mp hds
    have hcd : is_digits cur := by
      rcases hc with rfl | h
      · exact is_digits_nil
      · exact h.2.1
    have hc0 := value_nonneg hcd
    -- the partial remainder after the bring-down
    have hn1 : normalized (trim_leading_zeroes (dl_insert_last cur d)) := by
      apply trim_normalized
      · simp [dl_insert_last]
      · unfold dl_insert_last
        rw [is_digits_append]
        exact ⟨hcd, by intro z hz; simp only [List.mem_singleton] at hz; rw [hz]; exact hd9⟩
    have hv1 : value (trim_leading_zeroes (dl_insert_last cur d)) = 10 * value cur + d := by
      rw [trim_value]; exact value_append_singleton cur d
    rw [div_walk]
    rcases is_ge_spec hn1 hd with ⟨hg, hv⟩ | ⟨hg, hv⟩
    · rw [hg]
      simp only [one_ne_zero, if_false]
      obtain ⟨cur1, k, h1, h2, h3, h4, h5, h6⟩ :=
        div_search_spec fuel _ divisor 0 hn1 hd
          (by rw [hv1]
              have : (9 : Int) ≤ (fuel : Int) := by exact_mod_cast hfuel
              nlinarith)
      rw [h1]
      simp only [zero_add]
      have hk9 : k ≤ 9 := by
        by_contra hk
        have hk10 : 10 ≤ k := by omega
        have hc1 := value_nonneg h2.2.1
        have hw : 0 < value divisor := by omega
        have := mul_le_mul_of_nonneg_right hk10 hw.le
        rw [hv1] at h4
        omega
      obtain ⟨cur2, qs, g1, g2, g3, g4, g5, g6⟩ :=
        ih cur1 (dl_insert_last quot k) hrest (Or.inr h2) h3
      refine ⟨cur2, k :: qs, ?_, g2, g3, ?_, by simp [g5], ?_⟩
      · rw [g1]; simp [dl_insert_last]
      · rw [is_digits_cons]; exact ⟨⟨h5, hk9⟩, g4⟩
      · have e1 : quot ++ k :: qs = dl_insert_last quot k ++ qs := by simp [dl_insert_last]
        rw [e1, g6]
        unfold dl_insert_last
        rw [value_append_singleton, value_cons d rest, List.length_cons, pow_succ]
        rw [hv1] at h4
        linear_combination (-(10 : Int) ^ rest.length) * h4
    · rw [hg]
      simp only [if_true]
      obtain ⟨cur2, qs, g1, g2, g3, g4, g5, g6⟩ :=
        ih (trim_leading_zeroes (dl_insert_last cur d)) (dl_insert_last quot 0) hrest
          (Or.inr hn1) hv
      refine ⟨cur2, 0 :: qs, ?_, g2, g3, ?_, by simp [g5], ?_⟩
      · rw [g1]; simp [dl_insert_last]
      · rw [is_digits_cons]; exact ⟨⟨le_refl 0, by norm_num⟩, g4⟩
      · have e1 : quot ++ 0 :: qs = dl_insert_last quot 0 ++ qs := by simp [dl_insert_last]
        rw [e1, g6, hv1]
        unfold dl_insert_last
        rw [value_append_singleton, value_cons d rest, List.length_cons, pow_succ]
        ring

theorem div_zero_check_iff (b : List Int) :
    (b = [] ∨ (b.head? = some 0 ∧ b.tail = [])) ↔ (b = [] ∨ b = [0]) := by
  cases b with
  | nil => simp
  | cons d t => simp

/-- Both modes of `div_number` on a digit-sequence dividend and a normalized
non-zero divisor: the call succeeds, the remainder output satisfies the
division identity with the quotient of the walk, and `head3` is that quotient
in `/` mode and the remainder in `%` mode. -/
theorem div_number_spec (fuel : Nat) (a b q0 r0 : List Int) (ch : Char) (hfuel : 9 ≤ fuel)
    (ha : is_digits a) (hb : normalized b) (hbz : b ≠ [0]) :
    ∃ q r, div_number fuel a b q0 r0 ch = some (SUCCESS, if ch = '%' then r else q, r) ∧
      is_digits q ∧ is_digits r ∧
      value a = value q * value b + value r ∧ value r < value b := by
  have hchk : ¬ (b = [] ∨ (b.head? = some 0 ∧ b.tail = [])) := by
    rw [div_zero_check_iff]
    rintro (h | h)
    · exact hb.1 h
    · exact hbz h
  unfold div_number
  simp only [hchk, if_false, dl_delete_list, copy_list_eq]
  by_cases hge : is_greater_or_equal a b = 0
  · simp only [hge, if_true]
    refine ⟨[0], a, ?_, by decide, ha, ?_, is_ge_zero_lt ha hb hbz hge⟩
    · simp [dl_insert_last]
    · simp [value]
  · simp only [hge, if_false]
    have hw := normalized_pos hb hbz
    obtain ⟨cur1, qs, h1, h2, h3, h4, _, h6⟩ :=
      div_walk_spec fuel b hfuel hb a [] [] ha (Or.inl rfl) (by rw [value_nil]; exact hw)
    rw [h1]
    simp only [List.nil_append]
    have hcd : is_digits cur1 := by
      rcases h2 with rfl | h
      · exact is_digits_nil
      · exact h.2.1
    refine ⟨trim_leading_zeroes qs, trim_leading_zeroes cur1, rfl, trim_is_digits h4,
      trim_is_digits hcd, ?_, by rw [trim_value]; exact h3⟩
    rw [trim_value, trim_value]
    simp only [List.nil_append, value_nil, zero_mul, zero_add] at h6
    linarith

/-- C3: for a normalized dividend `a` and a normalized non-zero divisor `b`,
`div_number` in `/` mode (the repeated-subtraction loop allowed at least 9
iterations per quotient digit) returns `SUCCESS` with a quotient `q` and a
remainder `r` such that `value a = value q * value b + value r` and
`value r < value b` (and `0 ≤ value r`). -/
theorem div_number_identity (fuel : Nat) (a b q0 r0 : List Int) (hfuel : 9 ≤ fuel)
    (ha : normalized a) (hb : normalized b) (hbz : b ≠ [0]) :
    ∃ q r, div_number fuel a b q0 r0 '/' = some (SUCCESS, q, r) ∧
      value a = value q * value b + value r ∧ 0 ≤ value r ∧ value r < value b := by
  obtain ⟨q, r, h1, _, h3, h4, h5⟩ := div_number_spec fuel a b q0 r0 '/' hfuel ha.2.1 hb hbz
  refine ⟨q, r, ?_, h4, value_nonneg h3, h5⟩
  rw [h1]; simp

theorem div_number_identity_witness :
    ∃ q r, div_number 9 [1, 7] [5] [] [] '/' = some (SUCCESS, q, r) ∧
      value [1, 7] = value q * value [5] + value r ∧ 0 ≤ value r ∧ value r < value [5] :=
  div_number_identity 9 [1, 7] [5] [] [] (by decide) (by decide) (by decide) (by decide)

/-- C6: a divisor that is the canonical zero `[0]` or the empty list makes
`div_number` return `FAILURE` in every mode, with the quotient and remainder
lists exactly as they were; for a normalized non-zero divisor (and a dividend
made of digits, the repeated-subtraction loop allowed at least 9 iterations per
quotient digit) it returns `SUCCESS` in every mode. -/
theorem div_number_zero_divisor (fuel : Nat) (a b q0 r0 : List Int) (ch : Char) :
    ((b = [0] ∨ b = []) → div_number fuel a b q0 r0 ch = some (FAILURE, q0, r0)) ∧
      (9 ≤ fuel → is_digits a → normalized b → b ≠ [0] →
        ∃ q r, div_number fuel a b q0 r0 ch = some (SUCCESS, q, r)) := by
  constructor
  · intro h
    have hchk : b = [] ∨ (b.head? = some 0 ∧ b.tail = []) := by
      rw [div_zero_check_iff]; tauto
    unfold div_number
    rw [if_pos hchk]
  · intro hfuel ha hb hbz
    obtain ⟨q, r, h1, _⟩ := div_number_spec fuel a b q0 r0 ch hfuel ha hb hbz
    exact ⟨_, r, h1⟩

theorem div_number_zero_divisor_witness :
    div_number 9 [1, 7] [0] [3] [4] '%' = some (FAILURE, [3], [4]) ∧
      ∃ q r, div_number 9 [1, 7] [5] [3] [4] '%' = some (SUCCESS, q, r) :=
  ⟨(div_number_zero_divisor 9 [1, 7] [0] [3] [4] '%').1 (Or.inl rfl),
    (div_number_zero_divisor 9 [1, 7] [5] [3] [4] '%').2 (by decide) (by decide) (by decide)
      (by decide)⟩

/-! ## The operator dispatch of `main` -/

/-- The sign picked after `sub_number`, times the absolute difference, is the
signed difference seen from the first operand's sign. -/
theorem sub_result_sign_mul (s1 : Int) (hs1 : s1 = 1 ∨ s1 = -1) (va vb : Int) :
    sub_result_sign s1 (if va < vb then 1 else 0) * |va - vb| = s1 * (va - vb) := by
  unfold sub_result_sign
  by_cases hlt : va < vb
  · rw [abs_of_neg (by omega)]
    rcases hs1 with rfl | rfl <;> simp [hlt]
  · rw [abs_of_nonneg (by omega)]
    rcases hs1 with rfl | rfl <;> simp [hlt]

/-- C7: in the `+` case of the dispatch, for signs `s1, s2 ∈ {1, -1}` and
normalized magnitudes `a`, `b`, the result sign `r` and result list `m` satisfy
`r * value m = s1 * value a + s2 * value b`; and when the signs differ and the
magnitudes are unequal, `r` is the sign of the operand of larger magnitude. -/
theorem main_add_correct (fuel : Nat) (s1 s2 : Int) (a b : List Int)
    (hs1 : s1 = 1 ∨ s1 = -1) (hs2 : s2 = 1 ∨ s2 = -1)
    (ha : normalized a) (hb : normalized b) :
    ∃ st, main_switch fuel '+' s1 s2 a b = some st ∧ st.returned = none ∧
      st.result_sign * value st.head3 = s1 * value a + s2 * value b ∧
      (s1 ≠ s2 → value a ≠ value b →
        st.result_sign = if value b < value a then s1 else s2) := by
  unfold main_switch
  by_cases hs : s1 = s2
  · simp only [if_true, hs]
    refine ⟨_, rfl, rfl, ?_, fun h => absurd rfl h⟩
    simp only [add_number_sum]; ring
  · simp only [if_true, hs, if_false]
    obtain ⟨h1, h2, _, _, _⟩ := sub_number_spec ha hb
    refine ⟨_, rfl, rfl, ?_, ?_⟩
    · simp only [h1, h2]
      rw [sub_result_sign_mul s1 hs1]
      have : s2 = -s1 := by rcases hs1 with rfl | rfl <;> rcases hs2 with rfl | rfl <;> simp_all
      rw [this]; ring
    · intro _ hne
      simp only [h1]
      unfold sub_result_sign
      by_cases hlt : value a < value b
      · have hn : ¬ value b < value a := by omega
        rw [if_pos hlt, if_neg hn]
        rcases hs1 with rfl | rfl <;> rcases hs2 with rfl | rfl <;> simp at hs ⊢
      · have hn : value b < value a := by omega
        rw [if_neg hlt, if_pos hn]
        rcases hs1 with rfl | rfl <;> simp

theorem main_add_correct_witness :
    ∃ st, main_switch 0 '+' 1 (-1) [5] [1, 2] = some st ∧ st.returned = none ∧
      st.result_sign * value st.head3 = 1 * value [5] + (-1) * value [1, 2] ∧
      ((1 : Int) ≠ -1 → value [5] ≠ value [1, 2] →
        st.result_sign = if value [1, 2] < value [5] then 1 else -1) :=
  main_add_correct 0 1 (-1) [5] [1, 2] (by decide) (by decide) (by decide) (by decide)

/-- C8: in the `-` case of the dispatch, for signs `s1, s2 ∈ {1, -1}` and
normalized magnitudes `a`, `b`, the result sign `r` and result list `m` satisfy
`r * value m = s1 * value a - s2 * value b`. -/
theorem main_sub_correct (fuel : Nat) (s1 s2 : Int) (a b : List Int)
    (hs1 : s1 = 1 ∨ s1 = -1) (hs2 : s2 = 1 ∨ s2 = -1)
    (ha : normalized a) (hb : normalized b) :
    ∃ st, main_switch fuel '-' s1 s2 a b = some st ∧ st.returned = none ∧
      st.result_sign * value st.head3 = s1 * value a - s2 * value b := by
  unfold main_switch
  have hop : ¬ ('-' = '+') := by decide
  by_cases hs : s1 = s2
  · simp only [hop, if_false, if_true, hs, ne_eq, not_true_eq_false]
    obtain ⟨h1, h2, _, _, _⟩ := sub_number_spec ha hb
    refine ⟨_, rfl, rfl, ?_⟩
    simp only [h1, h2]
    rw [sub_result_sign_mul s2 hs2]; ring
  · simp only [hop, if_false, if_true, hs, ne_eq, not_false_eq_true]
    refine ⟨_, rfl, rfl, ?_⟩
    simp only [add_number_sum]
    have : s2 = -s1 := by rcases hs1 with rfl | rfl <;> rcases hs2 with rfl | rfl <;> simp_all
    rw [this]; ring

theorem main_sub_correct_witness :
    ∃ st, main_switch 0 '-' (-1) (-1) [5] [1, 2] = some st ∧ st.returned = none ∧
      st.result_sign * value st.head3 = (-1) * value [5] - (-1) * value [1, 2] :=
  main_sub_correct 0 (-1) (-1) [5] [1, 2] (by decide) (by decide) (by decide) (by decide)

/-- C9, as stated, fails: `5 - 12` has two positive operands, the one of larger
magnitude is the second, with sign `+1`, yet the dispatch reports the sign `-1`
(the sign of the true difference `-7`). -/
theorem main_sub_sign_counterexample :
    normalized [5] ∧ normalized [1, 2] ∧ value [5] < value [1, 2] ∧
      ∃ st, main_switch 0 '-' 1 1 [5] [1, 2] = some st ∧ st.result_sign = -1 ∧
        st.result_sign ≠ (if value [1, 2] < value [5] then (1 : Int) else (1 : Int)) := by
  refine ⟨by decide, by decide, by decide, _, rfl, by decide, by decide⟩

/-- C9, amended: in the `-` case with operands of equal sign and unequal
normalized magnitudes, the result sign is the first operand's sign when the
first operand has the larger magnitude, and the opposite of the operands'
common sign when the second operand has the larger magnitude. -/
theorem main_sub_sign (fuel : Nat) (s1 s2 : Int) (a b : List Int)
    (hs1 : s1 = 1 ∨ s1 = -1) (hs : s1 = s2)
    (ha : normalized a) (hb : normalized b) (hne : value a ≠ value b) :
    ∃ st, main_switch fuel '-' s1 s2 a b = some st ∧
      st.result_sign = if value b < value a then s1 else -s2 := by
  unfold main_switch
  have hop : ¬ ('-' = '+') := by decide
  simp only [hop, if_false, if_true, hs, ne_eq, not_true_eq_false]
  obtain ⟨h1, _⟩ := sub_number_spec ha hb
  refine ⟨_, rfl, ?_⟩
  simp only [h1]
  unfold sub_result_sign
  subst hs
  by_cases hlt : value a < value b
  · have hn : ¬ value b < value a := by omega
    rw [if_pos hlt, if_neg hn]
    rcases hs1 with rfl | rfl <;> simp
  · have hn : value b < value a := by omega
    rw [if_neg hlt, if_pos hn]
    rcases hs1 with rfl | rfl <;> simp

theorem main_sub_sign_witness :
    ∃ st, main_switch 0 '-' 1 1 [5] [1, 2] = some st ∧
      st.result_sign = if value [1, 2] < value [5] then 1 else -1 :=
  main_sub_sign 0 1 1 [5] [1, 2] (by decide) (by decide) (by decide) (by decide) (by decide)

/-- C10: in the `x` case of the dispatch, for signs `s1, s2 ∈ {1, -1}` and
normalized magnitudes `a`, `b`, the result sign `r` is `1` when the signs are
equal and `-1` otherwise, and with the result list `m`
`r * value m = (s1 * value a) * (s2 * value b)`. -/
theorem main_mul_correct (fuel : Nat) (s1 s2 : Int) (a b : List Int)
    (hs1 : s1 = 1 ∨ s1 = -1) (hs2 : s2 = 1 ∨ s2 = -1)
    (ha : normalized a) (hb : normalized b) :
    ∃ st, main_switch fuel 'x' s1 s2 a b = some st ∧ st.returned = none ∧
      st.result_sign = (if s1 = s2 then 1 else -1) ∧
      st.result_sign * value st.head3 = (s1 * value a) * (s2 * value b) := by
  unfold main_switch
  have hop1 : ¬ ('x' = '+') := by decide
  have hop2 : ¬ ('x' = '-') := by decide
  simp only [hop1, hop2, if_false, true_or, if_true]
  refine ⟨_, rfl, rfl, rfl, ?_⟩
  simp only [(mul_number_spec ha.1 ha.2.1 hb.2.1).2]
  rcases hs1 with rfl | rfl <;> rcases hs2 with rfl | rfl <;> simp

theorem main_mul_correct_witness :
    ∃ st, main_switch 0 'x' (-1) 1 [1, 2, 3] [4, 5, 6] = some st ∧ st.returned = none ∧
      st.result_sign = (if (-1 : Int) = 1 then 1 else -1) ∧
      st.result_sign * value st.head3 = (-1 * value [1, 2, 3]) * (1 * value [4, 5, 6]) :=
  main_mul_correct 0 (-1) 1 [1, 2, 3] [4, 5, 6] (by decide) (by decide) (by decide) (by decide)

/-! ## Commutativity of addition -/

theorem add_loop_comm (x y : List Int) (c : Int) (res : List Int) :
    add_loop x y c res = add_loop y x c res := by
  induction x generalizing y c res with
  | nil =>
    induction y generalizing c res with
    | nil => rfl
    | cons e u ih =>
      rw [add_loop, add_loop]
      exact ih _ _
  | cons d t ih =>
    cases y with
    | nil =>
      rw [add_loop, add_loop]
      exact ih [] _ _
    | cons e u =>
      rw [add_loop, add_loop]
      have hsum : c + d + e = c + e + d := by ring
      rw [hsum]
      exact ih u _ _

/-- C20: `add_number(a, b)` and `add_number(b, a)` produce the same status and
the same digit sequence, for all lists `a`, `b` (in particular all digit
sequences) and whatever the result list holds on entry. -/
theorem add_number_comm (a b l3 : List Int) : add_number a b l3 = add_number b a l3 := by
  unfold add_number
  rw [add_loop_comm a.reverse b.reverse 0 l3]

/-! ## The comparator as an order -/

theorem ge_loop_refl (a : List Int) : ge_loop a a = 1 := by
  induction a with
  | nil => rfl
  | cons d t ih => rw [ge_loop]; simp [ih]

theorem ge_loop_total (a b : List Int) : ge_loop a b = 1 ∨ ge_loop b a = 1 := by
  induction a generalizing b with
  | nil => left; cases b <;> rfl
  | cons d t ih =>
    cases b with
    | nil => left; rfl
    | cons e u =>
      rw [ge_loop, ge_loop]
      by_cases h1 : d > e
      · left; simp [h1]
      · by_cases h2 : d < e
        · right; simp [h2]
        · have h3 : ¬ e > d := by omega
          have h4 : ¬ e < d := by omega
          simp only [h1, h2, h3, h4, if_false]
          exact ih u

theorem ge_loop_antisymm (a b : List Int) (hlen : a.length = b.length)
    (h1 : ge_loop a b = 1) (h2 : ge_loop b a = 1) : a = b := by
  induction a generalizing b with
  | nil =>
    cases b with
    | nil => rfl
    | cons e u => simp at hlen
  | cons d t ih =>
    cases b with
    | nil => simp at hlen
    | cons e u =>
      rw [ge_loop] at h1 h2
      by_cases hde : d > e
      · have g1 : ¬ e > d := by omega
        have g2 : e < d := by omega
        simp [g1, g2] at h2
      · by_cases hed : d < e
        · simp [hde, hed] at h1
        · have g1 : ¬ e > d := by omega
          have g2 : ¬ e < d := by omega
          simp only [hde, hed, g1, g2, if_false] at h1 h2
          have hd : d = e := by omega
          rw [hd, ih u (by simpa using hlen) h1 h2]

theorem ge_loop_trans (a b c : List Int) (hab : a.length = b.length) (hbc : b.length = c.length)
    (h1 : ge_loop a b = 1) (h2 : ge_loop b c = 1) : ge_loop a c = 1 := by
  induction a generalizing b c with
  | nil => cases c <;> rfl
  | cons d t ih =>
    cases b with
    | nil => simp at hab
    | cons e u =>
      cases c with
      | nil => rfl
      | cons f v =>
        rw [ge_loop] at h1 h2 ⊢
        by_cases hde : d > e
        · by_cases hef : e > f
          · have : d > f := by omega
            simp [this]
          · by_cases hfe : e < f
            · simp [hef, hfe] at h2
            · have : d > f := by omega
              simp [this]
        · by_cases hed : d < e
          · simp [hde, hed] at h1
          · simp only [hde, hed, if_false] at h1
            have hd : d = e := by omega
            by_cases hef : e > f
            · have : d > f := by omega
              simp [this]
            · by_cases hfe : e < f
              · simp [hef, hfe] at h2
              · simp only [hef, hfe, if_false] at h2
                have g1 : ¬ d > f := by omega
                have g2 : ¬ d < f := by omega
                simp only [g1, g2, if_false]
                exact ih u v (by simpa using hab) (by simpa using hbc) h1 h2

theorem is_ge_length {a b : List Int} (h : is_greater_or_equal a b = 1) :
    b.length ≤ a.length := by
  unfold is_greater_or_equal get_list_length at h
  by_contra hlt
  have h1 : ¬ a.length > b.length := by omega
  have h2 : a.length < b.length := by omega
  simp [h1, h2] at h

theorem is_ge_of_length_lt {a b : List Int} (h : b.length < a.length) :
    is_greater_or_equal a b = 1 := by
  unfold is_greater_or_equal get_list_length
  simp [h]

theorem is_ge_of_length_eq {a b : List Int} (h : a.length = b.length) :
    is_greater_or_equal a b = ge_loop a b := by
  unfold is_greater_or_equal get_list_length
  simp [h]

theorem is_ge_antisymm {a b : List Int} (h1 : is_greater_or_equal a b = 1)
    (h2 : is_greater_or_equal b a = 1) : a = b := by
  have hlen : a.length = b.length := le_antisymm (is_ge_length h2) (is_ge_length h1)
  rw [is_ge_of_length_eq hlen] at h1
  rw [is_ge_of_length_eq hlen.symm] at h2
  exact ge_loop_antisymm a b hlen h1 h2

/-- C17: `is_greater_or_equal` is a total order on digit sequences (indeed on
all integer lists): it answers `1` on `(a, a)`; it answers `1` on `(a, b)` or on
`(b, a)`; if it answers `1` on both, `a` and `b` are the same list; and `1` on
`(a, b)` and on `(b, c)` gives `1` on `(a, c)`. -/
theorem is_ge_total_order (a b c : List Int) :
    is_greater_or_equal a a = 1 ∧
      (is_greater_or_equal a b = 1 ∨ is_greater_or_equal b a = 1) ∧
      (is_greater_or_equal a b = 1 → is_greater_or_equal b a = 1 → a = b) ∧
      (is_greater_or_equal a b = 1 → is_greater_or_equal b c = 1 →
        is_greater_or_equal a c = 1) := by
  refine ⟨?_, ?_, fun h1 h2 => is_ge_antisymm h1 h2, ?_⟩
  · rw [is_ge_of_length_eq rfl]; exact ge_loop_refl a
  · rcases Nat.lt_trichotomy a.length b.length with h | h | h
    · right; exact is_ge_of_length_lt h
    · rw [is_ge_of_length_eq h, is_ge_of_length_eq h.symm]; exact ge_loop_total a b
    · left; exact is_ge_of_length_lt h
  · intro h1 h2
    have l1 := is_ge_length h1
    have l2 := is_ge_length h2
    rcases Nat.lt_or_ge c.length a.length with h | h
    · exact is_ge_of_length_lt h
    · have hab : a.length = b.length := by omega
      have hbc : b.length = c.length := by omega
      rw [is_ge_of_length_eq hab] at h1
      rw [is_ge_of_length_eq hbc] at h2
      rw [is_ge_of_length_eq (hab.trans hbc)]
      exact ge_loop_trans a b c hab hbc h1 h2

theorem is_ge_total_order_witness :
    is_greater_or_equal [1, 2] [1, 2] = 1 ∧
      (is_greater_or_equal [1, 2] [1, 2] = 1 ∨ is_greater_or_equal [1, 2] [1, 2] = 1) ∧
      [1, 2] = ([1, 2] : List Int) ∧ is_greater_or_equal [1, 2] [7] = 1 :=
  ⟨(is_ge_total_order [1, 2] [1, 2] [7]).1, (is_ge_total_order [1, 2] [1, 2] [7]).2.1,
    (is_ge_total_order [1, 2] [1, 2] [7]).2.2.1 (by decide) (by decide),
    (is_ge_total_order [1, 2] [1, 2] [7]).2.2.2 (by decide) (by decide)⟩

/-- C18: on normalized magnitudes `is_greater_or_equal a b` answers `1` exactly
when `value a ≥ value b` (and `0` otherwise). -/
theorem is_ge_iff_value (a b : List Int) (ha : normalized a) (hb : normalized b) :
    (is_greater_or_equal a b = 1 ↔ value b ≤ value a) ∧
      (is_greater_or_equal a b = 0 ↔ value a < value b) := by
  rcases is_ge_spec ha hb with ⟨hg, hv⟩ | ⟨hg, hv⟩
  · rw [hg]
    exact ⟨⟨fun _ => hv, fun _ => rfl⟩, ⟨fun h => absurd h (by decide), fun h => by omega⟩⟩
  · rw [hg]
    exact ⟨⟨fun h => absurd h (by decide), fun h => by omega⟩, ⟨fun _ => hv, fun _ => rfl⟩⟩

theorem is_ge_iff_value_witness :
    (is_greater_or_equal [9, 9] [1, 0, 0] = 1 ↔ value [1, 0, 0] ≤ value [9, 9]) ∧
      (is_greater_or_equal [9, 9] [1, 0, 0] = 0 ↔ value [9, 9] < value [1, 0, 0]) :=
  is_ge_iff_value [9, 9] [1, 0, 0] (by decide) (by decide)

/-! ## Addition keeps digit lists normalized; the additive inverse -/

theorem update_result_add_digit (res : List Int) (s : Int) (h0 : 0 ≤ s) (h19 : s ≤ 19) :
    ∃ d c, update_result_add res s = (d :: res, c) ∧ d + 10 * c = s ∧
      (0 ≤ d ∧ d ≤ 9) ∧ (c = 0 ∨ c = 1) := by
  unfold update_result_add dl_insert_first
  by_cases h : s > 9
  · have hdiv : Int.tdiv s 10 = s / 10 := Int.tdiv_eq_ediv h0 (by norm_num)
    have hmod : Int.tmod s 10 = s % 10 := Int.tmod_eq_emod h0 (by norm_num)
    refine ⟨Int.tmod s 10, Int.tdiv s 10, by simp [h], Int.tmod_add_tdiv s 10, ?_, ?_⟩
    · rw [hmod]; omega
    · rw [hdiv]; omega
  · exact ⟨s, 0, by simp [h], by ring, by omega, Or.inl rfl⟩

theorem add_loop_digits (x y : List Int) (c : Int) (res : List Int)
    (hx : is_digits x) (hy : is_digits y) (hc : c = 0 ∨ c = 1) :
    ∃ p, (add_loop x y c res).1 = p ++ res ∧ p.length = max x.length y.length ∧
      is_digits p ∧ ((add_loop x y c res).2 = 0 ∨ (add_loop x y c res).2 = 1) := by
  induction x, y, c, res using add_loop.induct with
  | case1 c res => exact ⟨[], by simp [add_loop], rfl, is_digits_nil, by simpa [add_loop] using hc⟩
  | case2 d1 t1 c res r ih =>
    obtain ⟨hd, ht⟩ := is_digits_cons.mp hx
    obtain ⟨d, c1, hr, _, hd9, hc1⟩ := update_result_add_digit res (c + d1)
      (by rcases hc with rfl | rfl <;> omega) (by rcases hc with rfl | rfl <;> omega)
    rw [add_loop]
    simp only [r, hr] at ih ⊢
    obtain ⟨p, h1, h2, h3, h4⟩ := ih ht hy hc1
    refine ⟨p ++ [d], by rw [h1]; simp, by simp [h2], ?_, h4⟩
    rw [is_digits_append]
    exact ⟨h3, by intro z hz; simp only [List.mem_singleton] at hz; rw [hz]; exact hd9⟩
  | case3 d2 t2 c res r ih =>
    obtain ⟨hd, ht⟩ := is_digits_cons.mp hy
    obtain ⟨d, c1, hr, _, hd9, hc1⟩ := update_result_add_digit res (c + d2)
      (by rcases hc with rfl | rfl <;> omega) (by rcases hc with rfl | rfl <;> omega)
    rw [add_loop]
    simp only [r, hr] at ih ⊢
    obtain ⟨p, h1, h2, h3, h4⟩ := ih hx ht hc1
    refine ⟨p ++ [d], by rw [h1]; simp, by simp [h2], ?_, h4⟩
    rw [is_digits_append]
    exact ⟨h3, by intro z hz; simp only [List.mem_singleton] at hz; rw [hz]; exact hd9⟩
  | case4 d1 t1 d2 t2 c res r ih =>
    obtain ⟨hd1, ht1⟩ := is_digits_cons.mp hx
    obtain ⟨hd2, ht2⟩ := is_digits_cons.mp hy
    obtain ⟨d, c1, hr, _, hd9, hc1⟩ := update_result_add_digit res (c + d1 + d2)
      (by rcases hc with rfl | rfl <;> omega) (by rcases hc with rfl | rfl <;> omega)
    rw [add_loop]
    simp only [r, hr] at ih ⊢
    obtain ⟨p, h1, h2, h3, h4⟩ := ih ht1 ht2 hc1
    refine ⟨p ++ [d], by rw [h1]; simp, ?_, ?_, h4⟩
    · simp only [List.length_append, h2, List.length_cons, List.length_nil]
      omega
    · rw [is_digits_append]
      exact ⟨h3, by intro z hz; simp only [List.mem_singleton] at hz; rw [hz]; exact hd9⟩

theorem add_number_digits {a b : List Int} (ha : is_digits a) (hb : is_digits b) :
    is_digits (add_number a b []).2 := by
  obtain ⟨p, h1, _, h3, h4⟩ := add_loop_digits a.reverse b.reverse 0 []
    (is_digits_reverse.mpr ha) (is_digits_reverse.mpr hb) (Or.inl rfl)
  rw [List.append_nil] at h1
  unfold add_number
  rcases h4 with h0 | h1c
  · simp only [h0, ne_eq, not_true_eq_false, if_false, h1]
    exact h3
  · simp only [h1c, ne_eq, one_ne_zero, not_false_eq_true, if_true, h1, dl_insert_first]
    rw [is_digits_cons]
    exact ⟨by omega, h3⟩

/-- A normalized list of two or more digits is at least `10 ^ (length - 1)`. -/
theorem normalized_pow_le {l : List Int} (h : normalized l) (h2 : 2 ≤ l.length) :
    (10 : Int) ^ (l.length - 1) ≤ value l := by
  cases l with
  | nil => simp at h2
  | cons d t =>
    cases t with
    | nil => simp at h2
    | cons e u =>
      have := pow_le_value_cons h.2.1 (normalized_cons_cons h)
      simpa using this

theorem add_number_normalized {a b : List Int} (ha : normalized a) (hb : normalized b) :
    normalized (add_number a b []).2 := by
  obtain ⟨p, h1, h2, h3, h4⟩ := add_loop_digits a.reverse b.reverse 0 []
    (is_digits_reverse.mpr ha.2.1) (is_digits_reverse.mpr hb.2.1) (Or.inl rfl)
  have hv := add_loop_value a.reverse b.reverse 0 []
  rw [value_le_reverse, value_le_reverse] at hv
  simp only [value_nil, List.length_nil, pow_zero, mul_one, zero_add] at hv
  rw [List.append_nil] at h1
  rw [List.length_reverse, List.length_reverse] at h2
  have hdig := add_number_digits ha.2.1 hb.2.1
  unfold add_number at hdig ⊢
  rcases h4 with h0 | h1c
  · simp only [h0, ne_eq, not_true_eq_false, if_false, h1] at hdig ⊢
    rw [h0, h1] at hv
    simp only [zero_mul, add_zero] at hv
    have hapos : 0 < a.length := List.length_pos.mpr ha.1
    refine ⟨fun hp => by rw [hp] at h2; simp at h2; omega, h3, ?_⟩
    intro hhead
    cases p with
    | nil => simp at hhead
    | cons d t =>
      simp only [List.head?_cons, Option.some.injEq] at hhead
      cases t with
      | nil => rw [hhead]
      | cons e u =>
        exfalso
        have hvt : value (d :: e :: u) = value (e :: u) := by rw [value_cons, hhead]; simp
        have hlt := value_lt_pow (is_digits_cons.mp h3).2
        have ha0 := value_nonneg ha.2.1
        have hb0 := value_nonneg hb.2.1
        simp only [List.length_cons] at h2 hlt
        rcases le_total a.length b.length with hab | hab
        · have hbl : b.length = u.length + 1 + 1 := by omega
          have := normalized_pow_le hb (by omega)
          rw [hbl] at this
          simp only [Nat.add_sub_cancel] at this
          omega
        · have hal : a.length = u.length + 1 + 1 := by omega
          have := normalized_pow_le ha (by omega)
          rw [hal] at this
          simp only [Nat.add_sub_cancel] at this
          omega
  · simp only [h1c, ne_eq, one_ne_zero, not_false_eq_true, if_true, h1, dl_insert_first]
      at hdig ⊢
    exact ⟨by simp, hdig, by simp⟩

/-- Two normalized lists with the same value are the same list. -/
theorem normalized_unique {x y : List Int} (hx : normalized x) (hy : normalized y)
    (h : value x = value y) : x = y := by
  apply is_ge_antisymm
  · rcases is_ge_spec hx hy with ⟨hg, _⟩ | ⟨_, hv⟩
    · exact hg
    · omega
  · rcases is_ge_spec hy hx with ⟨hg, _⟩ | ⟨_, hv⟩
    · exact hg
    · omega

/-- C19: for normalized magnitudes `a` and `b`, subtracting `b` with
`sub_number` from the list that `add_number(a, b)` produced gives back exactly
the digit sequence `a`, with swap flag `0`. -/
theorem add_sub_inverse (a b : List Int) (ha : normalized a) (hb : normalized b) :
    (sub_number (add_number a b []).2 b []).1 = 0 ∧
      (sub_number (add_number a b []).2 b []).2.2.2 = a := by
  have hs := add_number_normalized ha hb
  have hv := add_number_sum a b
  have ha0 := value_nonneg ha.2.1
  obtain ⟨h1, h2, h3, _, _⟩ := sub_number_spec hs hb
  have hnlt : ¬ value (add_number a b []).2 < value b := by omega
  refine ⟨by rw [h1, if_neg hnlt], ?_⟩
  apply normalized_unique h3 ha
  rw [h2, hv, abs_of_nonneg (by omega)]
  ring

theorem add_sub_inverse_witness :
    (sub_number (add_number [9, 9, 9] [1] []).2 [1] []).1 = 0 ∧
      (sub_number (add_number [9, 9, 9] [1] []).2 [1] []).2.2.2 = [9, 9, 9] :=
  add_sub_inverse [9, 9, 9] [1] (by decide) (by decide)

/-! ## `is_zero` and the value -/

theorem is_zero_or (l : List Int) : is_zero l = 0 ∨ is_zero l = 1 := by
  induction l with
  | nil => right; rfl
  | cons d t ih =>
    rw [is_zero]
    by_cases h : d ≠ 0
    · left; rw [if_pos h]
    · rw [if_neg h]; exact ih

theorem is_zero_eq_one_iff (l : List Int) : is_zero l = 1 ↔ ∀ d ∈ l, d = 0 := by
  induction l with
  | nil => simp [is_zero]
  | cons d t ih =>
    rw [is_zero]
    by_cases h : d ≠ 0
    · rw [if_pos h]
      constructor
      · intro h0; exact absurd h0 (by decide)
      · intro hall; exact absurd (hall d (List.mem_cons_self _ _)) h
    · rw [if_neg h, ih]
      have hd : d = 0 := not_not.mp h
      simp [hd]

theorem value_eq_zero_iff {l : List Int} (h : is_digits l) :
    value l = 0 ↔ ∀ d ∈ l, d = 0 := by
  induction l with
  | nil => simp [value_nil]
  | cons d t ih =>
    obtain ⟨hd, ht⟩ := is_digits_cons.mp h
    have ht0 := value_nonneg ht
    have hp : (0 : Int) < 10 ^ t.length := by positivity
    rw [value_cons]
    constructor
    · intro hv
      have hd0 : d = 0 := by
        by_contra hne
        have h1 : 1 ≤ d := by omega
        have := mul_le_mul_of_nonneg_right h1 hp.le
        omega
      rw [hd0] at hv
      simp only [zero_mul, zero_add] at hv
      intro z hz
      rcases List.mem_cons.mp hz with rfl | hz
      · exact hd0
      · exact (ih ht).mp hv z hz
    · intro hall
      have hd0 : d = 0 := hall d (List.mem_cons_self _ _)
      have hv : value t = 0 := (ih ht).mpr (fun z hz => hall z (List.mem_cons_of_mem _ hz))
      rw [hd0, hv]; simp

/-- On a digit list `is_zero` answers `0` exactly when the value is not `0`. -/
theorem is_zero_eq_zero_iff_value {l : List Int} (h : is_digits l) :
    is_zero l = 0 ↔ value l ≠ 0 := by
  rw [Ne, value_eq_zero_iff h, ← is_zero_eq_one_iff]
  rcases is_zero_or l with h0 | h1
  · rw [h0]; simp
  · rw [h1]; simp

theorem mul_number_digits {a b : List Int} (hne : a ≠ []) (ha : is_digits a)
    (hb : is_digits b) : is_digits (mul_number a b []).2 := by
  obtain ⟨h1, h2, _, _⟩ := mul_cells_spec ha hb
  have hpos : 0 < a.length := List.length_pos.mpr hne
  have hn : ¬ (a.length + b.length = 0) := by omega
  unfold mul_number get_list_length
  simp only [hn, if_false]
  have hle := mul_first_digit_le (mul_cells a b).1 (a.length + b.length - 1)
  rw [mul_emit_eq _ _ _ (by rw [h1]; omega), List.nil_append, is_digits_reverse]
  intro d hd
  exact h2 d (List.mem_of_mem_take hd)

/-! ## The division case of `main` and the printed sign -/

theorem main_switch_div (fuel : Nat) (s1 s2 : Int) (a b : List Int) (hfuel : 9 ≤ fuel)
    (ha : is_digits a) (hb : normalized b) (hbz : b ≠ [0]) :
    ∃ q r, main_switch fuel '/' s1 s2 a b =
        some ⟨' ', a, b, q, if s1 = s2 then 1 else -1, r,
          decide ((if s1 = s2 then (1 : Int) else -1) = -1 ∧ is_zero q = 0),
          decide (s1 = -1 ∧ is_zero r = 0), none⟩ ∧
      is_digits q ∧ is_digits r ∧
      value a = value q * value b + value r ∧ value r < value b := by
  obtain ⟨q, r, h1, h2, h3, h4, h5⟩ := div_number_spec fuel a b [] [] '/' hfuel ha hb hbz
  have hch : ¬ ('/' = '%') := by decide
  rw [if_neg hch] at h1
  refine ⟨q, r, ?_, h2, h3, h4, h5⟩
  unfold main_switch
  have hop1 : ¬ ('/' = '+') := by decide
  have hop2 : ¬ ('/' = '-') := by decide
  have hop3 : ¬ ('/' = 'x' ∨ '/' = 'X') := by decide
  have hsf : ¬ (SUCCESS = FAILURE) := by decide
  simp only [hop1, hop2, hop3, if_false, if_true, h1, hsf]

/-- C11: in the `/` case of the dispatch, for signs `s1, s2 ∈ {1, -1}`, a
normalized dividend `a` and a normalized non-zero divisor `b` (at least 9
iterations allowed per quotient digit), the quotient sign is `1` when the signs
are equal and `-1` otherwise, the remainder carries the dividend's sign `s1`,
`(signed quotient) * (s2 * value b) + (signed remainder) = s1 * value a` and
`|signed remainder| < value b`; the numbers as printed (a minus sign or none)
are those signed numbers. -/
theorem main_div_correct (fuel : Nat) (s1 s2 : Int) (a b : List Int) (hfuel : 9 ≤ fuel)
    (hs1 : s1 = 1 ∨ s1 = -1) (hs2 : s2 = 1 ∨ s2 = -1)
    (ha : normalized a) (hb : normalized b) (hbz : b ≠ [0]) :
    ∃ st, main_switch fuel '/' s1 s2 a b = some st ∧ st.returned = none ∧
      st.result_sign = (if s1 = s2 then 1 else -1) ∧
      (st.result_sign * value st.head3) * (s2 * value b) + s1 * value st.remainder_head
        = s1 * value a ∧
      |s1 * value st.remainder_head| < value b ∧
      (if main_result_minus st = true then -1 else 1) * value st.head3
        = st.result_sign * value st.head3 ∧
      (if main_remainder_minus st = true then -1 else 1) * value st.remainder_head
        = s1 * value st.remainder_head := by
  obtain ⟨q, r, h1, h2, h3, h4, h5⟩ := main_switch_div fuel s1 s2 a b hfuel ha.2.1 hb hbz
  have hr0 := value_nonneg h3
  refine ⟨_, h1, rfl, rfl, ?_, ?_, ?_, ?_⟩
  · simp only []
    rw [h4]
    rcases hs1 with rfl | rfl <;> rcases hs2 with rfl | rfl <;> simp <;> ring
  · simp only []
    rcases hs1 with rfl | rfl
    · rw [one_mul, abs_of_nonneg hr0]; exact h5
    · rw [neg_one_mul, abs_neg, abs_of_nonneg hr0]; exact h5
  · simp only [main_result_minus, ne_eq, not_true_eq_false, if_false]
    by_cases hz : is_zero q = 0
    · rcases hs1 with rfl | rfl <;> rcases hs2 with rfl | rfl <;> simp [hz]
    · have hv : value q = 0 := by
        by_contra hne
        exact hz ((is_zero_eq_zero_iff_value h2).mpr hne)
      simp [hv]
  · simp only [main_remainder_minus]
    by_cases hz : is_zero r = 0
    · rcases hs1 with rfl | rfl <;> simp [hz]
    · have hv : value r = 0 := by
        by_contra hne
        exact hz ((is_zero_eq_zero_iff_value h3).mpr hne)
      simp [hv]

theorem main_div_correct_witness :
    ∃ st, main_switch 9 '/' (-1) 1 [7] [2] = some st ∧ st.returned = none ∧
      st.result_sign = (if (-1 : Int) = 1 then 1 else -1) ∧
      (st.result_sign * value st.head3) * (1 * value [2]) + (-1) * value st.remainder_head
        = (-1) * value [7] ∧
      |(-1) * value st.remainder_head| < value [2] ∧
      (if main_result_minus st = true then -1 else 1) * value st.head3
        = st.result_sign * value st.head3 ∧
      (if main_remainder_minus st = true then -1 else 1) * value st.remainder_head
        = (-1) * value st.remainder_head :=
  main_div_correct 9 (-1) 1 [7] [2] (by decide) (by decide) (by decide) (by decide)
    (by decide) (by decide)

/-- The specification's scenario `-7 / 2`: quotient `3` printed with a minus,
remainder `1` printed with a minus. -/
theorem main_div_example :
    main_switch 9 '/' (-1) 1 [7] [2] = some ⟨' ', [7], [2], [3], -1, [1], true, true, none⟩ := by
  rfl

theorem main_result_minus_step6 (st : MainState) (hop : st.operator ≠ ' ')
    (hd : is_digits st.head3) :
    main_result_minus st = true ↔ st.result_sign = -1 ∧ value st.head3 ≠ 0 := by
  unfold main_result_minus
  rw [if_pos hop, decide_eq_true_iff, is_zero_eq_zero_iff_value hd]

/-- C12: for each operator `+`, `-`, `x`, `/` and normalized operands (a
non-zero divisor for `/`, at least 9 iterations allowed per quotient digit),
`main` prints a minus sign in front of the result (sum, difference, product or
quotient) exactly when the dispatch sign is `-1` and the result's value is not
zero, and in front of the remainder exactly when the operator is `/`, the
dividend's sign is `-1` and the remainder's value is not zero; so a zero
magnitude is never printed with a minus sign. -/
theorem main_no_negative_zero (fuel : Nat) (op : Char) (s1 s2 : Int) (a b : List Int)
    (hfuel : 9 ≤ fuel) (hop : op = '+' ∨ op = '-' ∨ op = 'x' ∨ op = '/')
    (ha : normalized a) (hb : normalized b) (hbz : op = '/' → b ≠ [0]) :
    ∃ st, main_switch fuel op s1 s2 a b = some st ∧ st.returned = none ∧
      (main_result_minus st = true ↔ st.result_sign = -1 ∧ value st.head3 ≠ 0) ∧
      (main_remainder_minus st = true ↔
        op = '/' ∧ s1 = -1 ∧ value st.remainder_head ≠ 0) ∧
      (value st.head3 = 0 → main_result_minus st = false) ∧
      (value st.remainder_head = 0 → main_remainder_minus st = false) := by
  have key : ∀ st : MainState,
      (main_result_minus st = true ↔ st.result_sign = -1 ∧ value st.head3 ≠ 0) →
      (main_remainder_minus st = true ↔
        op = '/' ∧ s1 = -1 ∧ value st.remainder_head ≠ 0) →
      (main_result_minus st = true ↔ st.result_sign = -1 ∧ value st.head3 ≠ 0) ∧
      (main_remainder_minus st = true ↔
        op = '/' ∧ s1 = -1 ∧ value st.remainder_head ≠ 0) ∧
      (value st.head3 = 0 → main_result_minus st = false) ∧
      (value st.remainder_head = 0 → main_remainder_minus st = false) := by
    intro st h1 h2
    refine ⟨h1, h2, ?_, ?_⟩
    · intro hv
      cases hm : main_result_minus st with
      | false => rfl
      | true => exact absurd hv (h1.mp hm).2
    · intro hv
      cases hm : main_remainder_minus st with
      | false => rfl
      | true => exact absurd hv (h2.mp hm).2.2
  rcases hop with rfl | rfl | rfl | rfl
  · unfold main_switch
    rw [if_pos rfl]
    by_cases hs : s1 = s2
    · rw [if_pos hs]
      refine ⟨_, rfl, rfl, key _ ?_ ?_⟩
      · exact main_result_minus_step6 _ (by show ('+' : Char) ≠ ' '; decide)
          (add_number_digits ha.2.1 hb.2.1)
      · simp [main_remainder_minus]
    · rw [if_neg hs]
      refine ⟨_, rfl, rfl, key _ ?_ ?_⟩
      · exact main_result_minus_step6 _ (by show ('+' : Char) ≠ ' '; decide)
          (sub_number_spec ha hb).2.2.1.2.1
      · simp [main_remainder_minus]
  · unfold main_switch
    rw [if_neg (by decide : ¬ ('-' = '+')), if_pos rfl]
    by_cases hs : s1 = s2
    · rw [if_neg (not_not.mpr hs)]
      refine ⟨_, rfl, rfl, key _ ?_ ?_⟩
      · exact main_result_minus_step6 _ (by show ('-' : Char) ≠ ' '; decide)
          (sub_number_spec ha hb).2.2.1.2.1
      · simp [main_remainder_minus]
    · rw [if_pos hs]
      refine ⟨_, rfl, rfl, key _ ?_ ?_⟩
      · exact main_result_minus_step6 _ (by show ('-' : Char) ≠ ' '; decide)
          (add_number_digits ha.2.1 hb.2.1)
      · simp [main_remainder_minus]
  · unfold main_switch
    rw [if_neg (by decide : ¬ ('x' = '+')), if_neg (by decide : ¬ ('x' = '-')),
      if_pos (Or.inl rfl)]
    refine ⟨_, rfl, rfl, key _ ?_ ?_⟩
    · exact main_result_minus_step6 _ (by show ('x' : Char) ≠ ' '; decide)
        (mul_number_digits ha.1 ha.2.1 hb.2.1)
    · simp [main_remainder_minus]
  · obtain ⟨q, r, h1, h2, h3, _, _⟩ :=
      main_switch_div fuel s1 s2 a b hfuel ha.2.1 hb (hbz rfl)
    refine ⟨_, h1, rfl, key _ ?_ ?_⟩
    · simp only [main_result_minus, ne_eq, not_true_eq_false, if_false, decide_eq_true_iff]
      rw [is_zero_eq_zero_iff_value h2]
    · simp only [main_remainder_minus, decide_eq_true_iff, true_and]
      rw [is_zero_eq_zero_iff_value h3]

theorem main_no_negative_zero_witness :
    ∃ st, main_switch 9 'x' (-1) 1 [0] [1, 2, 3, 4, 5] = some st ∧ st.returned = none ∧
      (main_result_minus st = true ↔ st.result_sign = -1 ∧ value st.head3 ≠ 0) ∧
      (main_remainder_minus st = true ↔
        'x' = '/' ∧ (-1 : Int) = -1 ∧ value st.remainder_head ≠ 0) ∧
      (value st.head3 = 0 → main_result_minus st = false) ∧
      (value st.remainder_head = 0 → main_remainder_minus st = false) :=
  main_no_negative_zero 9 'x' (-1) 1 [0] [1, 2, 3, 4, 5] (by decide) (by decide) (by decide)
    (by decide) (by decide)

/-! ## Characters of a digit run -/

theorem char_digit_bounds {c : Char} (h : '0' ≤ c ∧ c ≤ '9') :
    48 ≤ c.toNat ∧ c.toNat ≤ 57 := by
  obtain ⟨h1, h2⟩ := h
  rw [Char.le_def] at h1 h2
  exact ⟨h1, h2⟩

theorem char_eq_of_toNat {c : Char} {n : Nat} (h : c.toNat = n) : c = Char.ofNat n := by
  rw [← h, Char.ofNat_toNat]

theorem digit_value_eq_zero_iff (c : Char) : digit_value c = 0 ↔ c = '0' := by
  unfold digit_value
  constructor
  · intro h
    have h48 : c.toNat = 48 := by omega
    exact char_eq_of_toNat h48
  · intro h; rw [h]; decide

theorem digit_value_bounds {c : Char} (h : '0' ≤ c ∧ c ≤ '9') :
    0 ≤ digit_value c ∧ digit_value c ≤ 9 := by
  have := char_digit_bounds h
  unfold digit_value
  omega

theorem print_int_digit_value {c : Char} (h : '0' ≤ c ∧ c ≤ '9') :
    print_int (digit_value c) = [c] := by
  obtain ⟨h1, h2⟩ := char_digit_bounds h
  have hc : ∀ n, c.toNat = n → c = Char.ofNat n := fun n hn => char_eq_of_toNat hn
  have hcases : c.toNat = 48 ∨ c.toNat = 49 ∨ c.toNat = 50 ∨ c.toNat = 51 ∨ c.toNat = 52 ∨
      c.toNat = 53 ∨ c.toNat = 54 ∨ c.toNat = 55 ∨ c.toNat = 56 ∨ c.toNat = 57 := by omega
  rcases hcases with h | h | h | h | h | h | h | h | h | h <;>
    (rw [hc _ h]; decide)

theorem is_digits_map_digit_value {cs : List Char} (h : ∀ c ∈ cs, '0' ≤ c ∧ c ≤ '9') :
    is_digits (cs.map digit_value) := by
  intro d hd
  obtain ⟨c, hc, rfl⟩ := List.mem_map.mp hd
  exact digit_value_bounds (h c hc)

theorem print_list_map_digit_value {cs : List Char} (h : ∀ c ∈ cs, '0' ≤ c ∧ c ≤ '9') :
    print_list (cs.map digit_value) = cs := by
  induction cs with
  | nil => rfl
  | cons c t ih =>
    rw [List.map_cons, print_list, print_int_digit_value (h c (List.mem_cons_self _ _)),
      ih (fun z hz => h z (List.mem_cons_of_mem _ hz))]
    rfl

/-! ## `is_valid_number` -/

theorem is_valid_number_loop_spec (l : List Char) :
    (is_valid_number_loop l = 1 ↔ ∀ c ∈ l, '0' ≤ c ∧ c ≤ '9') ∧
      (is_valid_number_loop l = 0 ↔ ¬ ∀ c ∈ l, '0' ≤ c ∧ c ≤ '9') := by
  induction l with
  | nil => simp [is_valid_number_loop]
  | cons c t ih =>
    rw [is_valid_number_loop]
    by_cases h : c < '0' ∨ c > '9'
    · rw [if_pos h]
      have hbad : ¬ ('0' ≤ c ∧ c ≤ '9') := by
        rintro ⟨h1, h2⟩
        rcases h with h | h
        · exact absurd h1 (not_le.mpr h)
        · exact absurd h2 (not_le.mpr h)
      have hall : ¬ ∀ z ∈ c :: t, '0' ≤ z ∧ z ≤ '9' :=
        fun hall => hbad (hall c (List.mem_cons_self _ _))
      exact ⟨⟨fun h0 => absurd h0 (by decide), fun h1 => absurd h1 hall⟩,
        ⟨fun _ => hall, fun _ => rfl⟩⟩
    · rw [if_neg h]
      have hgood : '0' ≤ c ∧ c ≤ '9' := by
        constructor
        · exact not_lt.mp (fun hlt => h (Or.inl hlt))
        · exact not_lt.mp (fun hlt => h (Or.inr hlt))
      have hiff : (∀ z ∈ c :: t, '0' ≤ z ∧ z ≤ '9') ↔ ∀ z ∈ t, '0' ≤ z ∧ z ≤ '9' := by
        simp [hgood]
      rw [hiff]
      exact ih

theorem is_valid_number_some (s : List Char) :
    is_valid_number (some s) =
      if digit_run s = [] then 0 else is_valid_number_loop (digit_run s) := by
  unfold is_valid_number digit_run
  cases s with
  | nil => simp
  | cons c t =>
    by_cases hc : c = '-'
    · subst hc
      cases t with
      | nil => simp
      | cons d u => simp
    · simp [hc]

/-- C15: `is_valid_number` accepts exactly the numeral grammar: it returns `1`
if and only if the string is an optional leading `'-'` followed by one or more
characters all in `'0'..'9'`, and `0` if and only if it is not; in particular
it returns `0` for `NULL`, for the empty string and for a lone `"-"`. -/
theorem is_valid_number_grammar (s : List Char) :
    (is_valid_number (some s) = 1 ↔ is_literal s) ∧
      (is_valid_number (some s) = 0 ↔ ¬ is_literal s) ∧
      is_valid_number none = 0 ∧ is_valid_number (some []) = 0 ∧
      is_valid_number (some ['-']) = 0 := by
  refine ⟨?_, ?_, rfl, by decide, by decide⟩
  · rw [is_valid_number_some]
    unfold is_literal
    by_cases hne : digit_run s = []
    · rw [if_pos hne]
      constructor
      · intro h; exact absurd h (by decide)
      · intro h; exact absurd hne h.1
    · rw [if_neg hne, (is_valid_number_loop_spec _).1]
      exact ⟨fun h => ⟨hne, h⟩, fun h => h.2⟩
  · rw [is_valid_number_some]
    unfold is_literal
    by_cases hne : digit_run s = []
    · rw [if_pos hne]
      exact ⟨fun _ h => h.1 hne, fun _ => rfl⟩
    · rw [if_neg hne, (is_valid_number_loop_spec _).2]
      exact ⟨fun h hl => h hl.2, fun h hall => h ⟨hne, hall⟩⟩

/-! ## `stored_num` -/

theorem stored_num_loop_eq (cs : List Char) (l : List Int) :
    stored_num_loop cs l = l ++ cs.map digit_value := by
  induction cs generalizing l with
  | nil => simp [stored_num_loop]
  | cons c t ih =>
    rw [stored_num_loop, ih]
    simp [dl_insert_last, digit_value]

theorem stored_num_skip_ne_nil {cs : List Char} (h : cs ≠ []) : stored_num_skip cs ≠ [] := by
  induction cs using stored_num_skip.induct with
  | case1 d t ih => rw [stored_num_skip, if_pos rfl]; exact ih (by simp)
  | case2 c d t hc => rw [stored_num_skip, if_neg hc]; simp
  | case3 l hl =>
    cases l with
    | nil => exact absurd rfl h
    | cons c t =>
      cases t with
      | nil => simp [stored_num_skip]
      | cons d u => exact absurd rfl (hl c d u)

theorem stored_num_skip_mem {cs : List Char} {z : Char} (h : z ∈ stored_num_skip cs) :
    z ∈ cs := by
  induction cs using stored_num_skip.induct with
  | case1 d t ih =>
    rw [stored_num_skip, if_pos rfl] at h
    exact List.mem_cons_of_mem _ (ih h)
  | case2 c d t hc => rw [stored_num_skip, if_neg hc] at h; exact h
  | case3 l hl =>
    cases l with
    | nil => simp [stored_num_skip] at h
    | cons c t =>
      cases t with
      | nil => simpa [stored_num_skip] using h
      | cons d u => exact absurd rfl (hl c d u)

/-- The skip loop of `stored_num` is `trim_leading_zeroes` on the digit values. -/
theorem stored_num_skip_map (cs : List Char) :
    (stored_num_skip cs).map digit_value = trim_leading_zeroes (cs.map digit_value) := by
  induction cs using stored_num_skip.induct with
  | case1 d t ih =>
    rw [stored_num_skip, if_pos rfl, ih]
    simp only [List.map_cons]
    rw [trim_leading_zeroes, if_pos ((digit_value_eq_zero_iff '0').mpr rfl)]
  | case2 c d t hc =>
    rw [stored_num_skip, if_neg hc]
    simp only [List.map_cons]
    rw [trim_leading_zeroes, if_neg (fun h => hc ((digit_value_eq_zero_iff c).mp h))]
  | case3 l hl =>
    cases l with
    | nil => simp [stored_num_skip, trim_leading_zeroes]
    | cons c t =>
      cases t with
      | nil => simp [stored_num_skip, trim_leading_zeroes]
      | cons d u => exact absurd rfl (hl c d u)

/-- The skip loop of `stored_num` strips the leading zeros of a non-empty run,
leaving `"0"` when the run holds nothing else. -/
theorem stored_num_skip_dropWhile {cs : List Char} (h : cs ≠ []) :
    stored_num_skip cs =
      if cs.dropWhile (fun c => c = '0') = [] then ['0']
      else cs.dropWhile (fun c => c = '0') := by
  induction cs using stored_num_skip.induct with
  | case1 d t ih =>
    rw [stored_num_skip, if_pos rfl, ih (by simp)]
    simp [List.dropWhile]
  | case2 c d t hc =>
    rw [stored_num_skip, if_neg hc]
    simp [List.dropWhile, hc]
  | case3 l hl =>
    cases l with
    | nil => exact absurd rfl h
    | cons c t =>
      cases t with
      | nil =>
        by_cases hc : c = '0'
        · simp [stored_num_skip, List.dropWhile, hc]
        · simp [stored_num_skip, List.dropWhile, hc]
      | cons d u => exact absurd rfl (hl c d u)

theorem stored_num_eq (s : List Char) (h : is_literal s) :
    stored_num s =
      (if s.head? = some '-' then -1 else 1, (stored_num_skip (digit_run s)).map digit_value) := by
  have hne := stored_num_skip_ne_nil h.1
  have hmap : (stored_num_skip (digit_run s)).map digit_value ≠ [] := by
    simpa using hne
  unfold stored_num
  unfold digit_run at hmap ⊢
  simp only [stored_num_loop_eq, List.nil_append, decide_eq_true_eq]
  rw [if_neg hmap]

theorem stored_num_spec (s : List Char) (h : is_literal s) :
    (stored_num s).1 = (if s.head? = some '-' then -1 else 1) ∧
      (stored_num s).2 = trim_leading_zeroes ((digit_run s).map digit_value) ∧
      normalized (stored_num s).2 ∧
      value (stored_num s).2 = value ((digit_run s).map digit_value) := by
  rw [stored_num_eq s h]
  have hd := is_digits_map_digit_value h.2
  have hne : (digit_run s).map digit_value ≠ [] := by simpa using h.1
  refine ⟨rfl, stored_num_skip_map _, ?_, ?_⟩
  · show normalized ((stored_num_skip (digit_run s)).map digit_value)
    rw [stored_num_skip_map]; exact trim_normalized hne hd
  · show value ((stored_num_skip (digit_run s)).map digit_value) = _
    rw [stored_num_skip_map]; exact trim_value _

/-- C14: for a valid literal `s` (an optional `'-'`, then one or more digits)
`stored_num` produces the digit values of the digit run of `s` with its leading
zeros dropped except the final digit; that list is normalized (non-empty, no
leading zero unless `[0]`), has the decimal value of the digit run, and the
returned sign is `-1` exactly when `s` begins with `'-'` and `1` otherwise. -/
theorem stored_num_correct (s : List Char) (h : is_literal s) :
    (stored_num s).2 = trim_leading_zeroes ((digit_run s).map digit_value) ∧
      normalized (stored_num s).2 ∧
      value (stored_num s).2 = value ((digit_run s).map digit_value) ∧
      ((stored_num s).1 = -1 ↔ s.head? = some '-') ∧
      ((stored_num s).1 = 1 ↔ ¬ s.head? = some '-') := by
  obtain ⟨h1, h2, h3, h4⟩ := stored_num_spec s h
  refine ⟨h2, h3, h4, ?_, ?_⟩
  · rw [h1]; by_cases hs : s.head? = some '-' <;> simp [hs]
  · rw [h1]; by_cases hs : s.head? = some '-' <;> simp [hs]

theorem stored_num_correct_witness :
    (stored_num ['-', '0', '0', '7']).2
        = trim_leading_zeroes ((digit_run ['-', '0', '0', '7']).map digit_value) ∧
      normalized (stored_num ['-', '0', '0', '7']).2 ∧
      value (stored_num ['-', '0', '0', '7']).2
        = value ((digit_run ['-', '0', '0', '7']).map digit_value) ∧
      ((stored_num ['-', '0', '0', '7']).1 = -1 ↔ ['-', '0', '0', '7'].head? = some '-') ∧
      ((stored_num ['-', '0', '0', '7']).1 = 1 ↔ ¬ ['-', '0', '0', '7'].head? = some '-') :=
  stored_num_correct ['-', '0', '0', '7'] (by decide)

theorem map_digit_value_eq_zero (cs : List Char) :
    cs.map digit_value = [0] ↔ cs = ['0'] := by
  cases cs with
  | nil => simp
  | cons c t =>
    cases t with
    | nil => simp [digit_value_eq_zero_iff]
    | cons d u => simp

theorem normalized_is_zero {l : List Int} (h : normalized l) : is_zero l = 0 ↔ l ≠ [0] := by
  rw [is_zero_eq_zero_iff_value h.2.1]
  constructor
  · intro hv hl; rw [hl] at hv; exact hv rfl
  · intro hl; exact (normalized_pos h hl).ne'

/-- The text printed for a parsed literal: a `'-'` when the literal has one and
its stripped digit run is not `"0"`, then the stripped digit run. -/
theorem format_stored_num (s : List Char) (h : is_literal s) :
    format_number (stored_num s) =
      (if s.head? = some '-' ∧ stored_num_skip (digit_run s) ≠ ['0'] then ['-'] else [])
        ++ stored_num_skip (digit_run s) := by
  obtain ⟨_, _, hn, _⟩ := stored_num_spec s h
  rw [stored_num_eq s h] at hn ⊢
  unfold format_number
  simp only [] at hn ⊢
  rw [print_list_map_digit_value (fun c hc => h.2 c (stored_num_skip_mem hc))]
  have hiff : ((if s.head? = some '-' then (-1 : Int) else 1) = -1 ∧
      is_zero ((stored_num_skip (digit_run s)).map digit_value) = 0) ↔
      (s.head? = some '-' ∧ stored_num_skip (digit_run s) ≠ ['0']) := by
    rw [normalized_is_zero hn, Ne, map_digit_value_eq_zero]
    by_cases hs : s.head? = some '-'
    · simp [hs]
    · simp [hs]
  by_cases hc : s.head? = some '-' ∧ stored_num_skip (digit_run s) ≠ ['0']
  · rw [if_pos (hiff.mpr hc), if_pos hc]
  · rw [if_neg (fun hx => hc (hiff.mp hx)), if_neg hc]

/-- C16: for every valid literal `s`, printing the output of `stored_num s` as
a `'-'` (exactly when the sign is `-1` and `is_zero` answers `0`) followed by the
digits as `print_list` emits them gives `canonicalize s`: the literal with its
redundant leading zeros stripped and a negative zero turned into `"0"`. -/
theorem format_stored_num_roundtrip (s : List Char) (h : is_literal s) :
    format_number (stored_num s) = canonicalize s := by
  rw [format_stored_num s h]
  unfold canonicalize
  simp only []
  rw [← stored_num_skip_dropWhile h.1]
  by_cases hc : s.head? = some '-' ∧ stored_num_skip (digit_run s) ≠ ['0']
  · rw [if_pos hc, if_pos hc]; rfl
  · rw [if_neg hc, if_neg hc]; rfl

theorem format_stored_num_roundtrip_witness :
    format_number (stored_num ['-', '0', '0', '7']) = canonicalize ['-', '0', '0', '7'] :=
  format_stored_num_roundtrip ['-', '0', '0', '7'] (by decide)

/-- C13, as stated, fails: the valid literal `"-0"` is parsed to the canonical
zero `[0]`, and the sign that `stored_num` records for it is `-1`, not `+1`. -/
theorem stored_num_zero_sign_counterexample :
    is_literal ['-', '0'] ∧ (stored_num ['-', '0']).2 = [0] ∧
      (stored_num ['-', '0']).1 = -1 ∧ (stored_num ['-', '0']).1 ≠ 1 := by
  decide

/-- C13, amended: for every valid literal whose parsed magnitude is the
canonical zero, the sign recorded by `stored_num` is `+1` when the literal has
no leading `'-'` and `-1` when it has one; the recorded list answers `1` to
`is_zero`, so the number is printed as `"0"`, without a minus sign. -/
theorem stored_num_zero_sign (s : List Char) (h : is_literal s)
    (hz : (stored_num s).2 = [0]) :
    (stored_num s).1 = (if s.head? = some '-' then -1 else 1) ∧
      is_zero (stored_num s).2 = 1 ∧ format_number (stored_num s) = ['0'] := by
  obtain ⟨h1, _, _, _⟩ := stored_num_spec s h
  refine ⟨h1, by rw [hz]; decide, ?_⟩
  unfold format_number
  rw [hz]
  have hz1 : ¬ ((stored_num s).1 = -1 ∧ is_zero [0] = 0) := by
    rintro ⟨_, h0⟩; exact absurd h0 (by decide)
  rw [if_neg hz1]
  decide

theorem stored_num_zero_sign_witness :
    (stored_num ['-', '0', '0', '0']).1
        = (if ['-', '0', '0', '0'].head? = some '-' then -1 else 1) ∧
      is_zero (stored_num ['-', '0', '0', '0']).2 = 1 ∧
      format_number (stored_num ['-', '0', '0', '0']) = ['0'] :=
  stored_num_zero_sign ['-', '0', '0', '0'] (by decide) (by decide)

/-! ## `trim_leading_zeroes`: idempotence and the suffix it returns -/

theorem trim_idem (m : List Int) :
    trim_leading_zeroes (trim_leading_zeroes m) = trim_leading_zeroes m := by
  induction m using trim_leading_zeroes.induct with
  | case1 => rfl
  | case2 d => rfl
  | case3 e t ih => rw [trim_leading_zeroes, if_pos rfl]; exact ih
  | case4 d e t hd =>
    have h1 : trim_leading_zeroes (d :: e :: t) = d :: e :: t := by
      rw [trim_leading_zeroes, if_neg hd]
    rw [h1, h1]

theorem trim_suffix (m : List Int) :
    ∃ zs, m = zs ++ trim_leading_zeroes m ∧ ∀ z ∈ zs, z = 0 := by
  induction m using trim_leading_zeroes.induct with
  | case1 => exact ⟨[], rfl, by simp⟩
  | case2 d => exact ⟨[], rfl, by simp⟩
  | case3 e t ih =>
    obtain ⟨zs, h1, h2⟩ := ih
    refine ⟨0 :: zs, ?_, ?_⟩
    · rw [trim_leading_zeroes, if_pos rfl, List.cons_append, ← h1]
    · intro z hz
      rcases List.mem_cons.mp hz with rfl | hz
      · rfl
      · exact h2 z hz
  | case4 d e t hd =>
    refine ⟨[], ?_, by simp⟩
    rw [trim_leading_zeroes, if_neg hd]; rfl

/-- C22: `trim_leading_zeroes` is idempotent: trimming a trimmed sequence
leaves it unchanged, for every list. -/
theorem trim_idempotent (m : List Int) :
    trim_leading_zeroes (trim_leading_zeroes m) = trim_leading_zeroes m :=
  trim_idem m

/-- C23: an empty sequence is left empty; for a non-empty sequence `m` the
result of `trim_leading_zeroes` is the suffix of `m` left after a run `zs` of
leading zeros, it is non-empty, it has no leading zero unless it is exactly
`[0]` (so no further leading zero could be removed while more than one digit
remains), and it has the decimal value of `m`. -/
theorem trim_leading_zeroes_spec (m : List Int) :
    trim_leading_zeroes [] = [] ∧
      (m ≠ [] → ∃ zs, m = zs ++ trim_leading_zeroes m ∧ (∀ z ∈ zs, z = 0) ∧
        trim_leading_zeroes m ≠ [] ∧
        ((trim_leading_zeroes m).head? = some 0 → trim_leading_zeroes m = [0]) ∧
        value (trim_leading_zeroes m) = value m) := by
  refine ⟨rfl, fun hne => ?_⟩
  obtain ⟨zs, h1, h2⟩ := trim_suffix m
  exact ⟨zs, h1, h2, trim_ne_nil hne, trim_head m, trim_value m⟩

theorem trim_leading_zeroes_spec_witness :
    trim_leading_zeroes [] = [] ∧
      ∃ zs, [0, 0, 1, 0] = zs ++ trim_leading_zeroes [0, 0, 1, 0] ∧ (∀ z ∈ zs, z = 0) ∧
        trim_leading_zeroes [0, 0, 1, 0] ≠ [] ∧
        ((trim_leading_zeroes [0, 0, 1, 0]).head? = some 0 →
          trim_leading_zeroes [0, 0, 1, 0] = [0]) ∧
        value (trim_leading_zeroes [0, 0, 1, 0]) = value [0, 0, 1, 0] :=
  ⟨(trim_leading_zeroes_spec [0, 0, 1, 0]).1,
    (trim_leading_zeroes_spec [0, 0, 1, 0]).2 (by decide)⟩

/-! ## `is_zero` -/

/-- C24: `is_zero` returns `1` if and only if every digit of the list is `0`
(and `0` otherwise), so it returns `1` for the empty list and for `[0, 0]`; on
a digit sequence that is the same as the decimal value being `0`. -/
theorem is_zero_iff_all_zero (l : List Int) :
    (is_zero l = 1 ↔ ∀ d ∈ l, d = 0) ∧ (is_zero l = 0 ↔ ¬ ∀ d ∈ l, d = 0) ∧
      is_zero [] = 1 ∧ is_zero [0, 0] = 1 ∧
      (is_digits l → (is_zero l = 1 ↔ value l = 0)) := by
  refine ⟨is_zero_eq_one_iff l, ?_, rfl, by decide, ?_⟩
  · rw [← is_zero_eq_one_iff]
    rcases is_zero_or l with h | h <;> rw [h] <;> simp
  · intro hd
    rw [is_zero_eq_one_iff, value_eq_zero_iff hd]

theorem is_zero_iff_all_zero_witness :
    is_zero [0, 0, 0] = 1 ↔ value [0, 0, 0] = 0 :=
  (is_zero_iff_all_zero [0, 0, 0]).2.2.2.2 (by decide)

/-! ## Addition needs no trimming -/

/-- C25: for normalized magnitudes `a` and `b` the result of `add_number`
(started on an empty result list) is already normalized — non-empty, digits
only, no leading zero unless it is `[0]` — and `trim_leading_zeroes` leaves it
unchanged. -/
theorem add_number_no_trim (a b : List Int) (ha : normalized a) (hb : normalized b) :
    normalized (add_number a b []).2 ∧
      trim_leading_zeroes (add_number a b []).2 = (add_number a b []).2 :=
  ⟨add_number_normalized ha hb, trim_of_normalized (add_number_normalized ha hb)⟩

theorem add_number_no_trim_witness :
    normalized (add_number [9, 9] [1] []).2 ∧
      trim_leading_zeroes (add_number [9, 9] [1] []).2 = (add_number [9, 9] [1] []).2 :=
  add_number_no_trim [9, 9] [1] (by decide) (by decide)

/-! ## `sub_number` and the caller's references -/

theorem sub_number_refs (a b l3 : List Int) :
    ((sub_number a b l3).1 = 0 ∧ (sub_number a b l3).2.1 = a ∧
        (sub_number a b l3).2.2.1 = b) ∨
      ((sub_number a b l3).1 = 1 ∧ (sub_number a b l3).2.1 = b ∧
        (sub_number a b l3).2.2.1 = a) := by
  unfold sub_number
  simp only [compare_numbers_eq]
  by_cases h : is_greater_or_equal a b = 0
  · right; simp [h]
  · left; simp [h]

/-- C30, as stated, fails: after `sub_number` on `5` and `12` the caller's
first reference denotes `12` and the second denotes `5`. -/
theorem sub_number_frame_counterexample :
    normalized [5] ∧ normalized [1, 2] ∧
      (sub_number [5] [1, 2] []).2.1 = [1, 2] ∧ (sub_number [5] [1, 2] []).2.1 ≠ [5] ∧
      (sub_number [5] [1, 2] []).2.2.1 = [5] ∧ (sub_number [5] [1, 2] []).2.2.1 ≠ [1, 2] := by
  decide

/-- C30, amended: after `sub_number` returns, the caller's two references
denote `a` and `b` as before exactly when the returned flag is `0`; when the
flag is `1` they are exchanged (the first denotes `b`, the second `a`).  For
normalized magnitudes the flag is `1` exactly when `value a < value b`. -/
theorem sub_number_references (a b l3 : List Int) :
    (((sub_number a b l3).1 = 0 ∧ (sub_number a b l3).2.1 = a ∧
          (sub_number a b l3).2.2.1 = b) ∨
        ((sub_number a b l3).1 = 1 ∧ (sub_number a b l3).2.1 = b ∧
          (sub_number a b l3).2.2.1 = a)) ∧
      (normalized a → normalized b →
        ((sub_number a b []).1 = 1 ↔ value a < value b)) := by
  refine ⟨sub_number_refs a b l3, fun ha hb => ?_⟩
  rw [(sub_number_spec ha hb).1]
  by_cases hlt : value a < value b <;> simp [hlt]

theorem sub_number_references_witness :
    (sub_number [5] [1, 2] []).1 = 1 ↔ value [5] < value [1, 2] :=
  (sub_number_references [5] [1, 2] []).2 (by decide) (by decide)

/-! ## Division: early exit, the two modes, normalized outputs -/

theorem div_zero_check_false {b : List Int} (hb : normalized b) (hbz : b ≠ [0]) :
    ¬ (b = [] ∨ (b.head? = some 0 ∧ b.tail = [])) := by
  rw [div_zero_check_iff]
  rintro (h | h)
  · exact hb.1 h
  · exact hbz h

theorem div_number_early (fuel : Nat) (a b q0 r0 : List Int) (ch : Char)
    (hb : normalized b) (hbz : b ≠ [0]) (hge : is_greater_or_equal a b = 0) :
    div_number fuel a b q0 r0 ch = some (SUCCESS, if ch = '%' then a else [0], a) := by
  unfold div_number
  simp only [div_zero_check_false hb hbz, if_false, dl_delete_list, copy_list_eq, hge, if_true]
  by_cases hc : ch = '%'
  · simp [hc]
  · simp [hc, dl_insert_last]

/-- C28: for normalized `a` and `b` with `value a < value b`, `div_number` in
`/` mode returns `SUCCESS` with the quotient exactly `[0]` and the remainder
equal, digit for digit, to the dividend `a` (no repeated subtraction runs, so
this holds with any fuel). -/
theorem div_number_early_exit (fuel : Nat) (a b q0 r0 : List Int)
    (ha : normalized a) (hb : normalized b) (hlt : value a < value b) :
    div_number fuel a b q0 r0 '/' = some (SUCCESS, [0], a) := by
  have ha0 := value_nonneg ha.2.1
  have hbz : b ≠ [0] := by
    intro h; rw [h] at hlt
    have : value [0] = 0 := by decide
    omega
  have hge : is_greater_or_equal a b = 0 := by
    rcases is_ge_spec ha hb with ⟨_, hv⟩ | ⟨hg, _⟩
    · omega
    · exact hg
  rw [div_number_early fuel a b q0 r0 '/' hb hbz hge]
  simp

theorem div_number_early_exit_witness :
    div_number 0 [9, 9] [1, 0, 0] [3] [4] '/' = some (SUCCESS, [0], [9, 9]) :=
  div_number_early_exit 0 [9, 9] [1, 0, 0] [3] [4] (by decide) (by decide) (by decide)

/-- The `%` call is the `/` call with the remainder copied into `head3`. -/
theorem div_number_mod_eq (fuel : Nat) (a b q0 r0 : List Int)
    (hb : normalized b) (hbz : b ≠ [0]) :
    div_number fuel a b q0 r0 '%' =
      (div_number fuel a b q0 r0 '/').map (fun t => (t.1, t.2.2, t.2.2)) := by
  have hne : ¬ ('/' = '%') := by decide
  unfold div_number
  simp only [div_zero_check_false hb hbz, if_false, dl_delete_list, copy_list_eq, if_true, hne]
  by_cases hge : is_greater_or_equal a b = 0
  · simp [hge]
  · simp only [hge, if_false]
    cases div_walk fuel b a [] [] with
    | none => rfl
    | some r => rfl

/-- C29: for every dividend and every normalized non-zero divisor, the call of
`div_number` with `ch = '%'` is the call with `ch = '/'` with the remainder
output copied into `head3` (same status, same remainder output, on both
paths, whatever the fuel); and on a digit-sequence dividend (at least 9
iterations allowed per quotient digit) both calls return `SUCCESS`, the `%`
call with the `/` call's remainder as `head3` and as remainder. -/
theorem div_number_modulus (fuel : Nat) (a b q0 r0 : List Int)
    (hb : normalized b) (hbz : b ≠ [0]) :
    div_number fuel a b q0 r0 '%' =
        (div_number fuel a b q0 r0 '/').map (fun t => (t.1, t.2.2, t.2.2)) ∧
      (9 ≤ fuel → is_digits a →
        ∃ q r, div_number fuel a b q0 r0 '/' = some (SUCCESS, q, r) ∧
          div_number fuel a b q0 r0 '%' = some (SUCCESS, r, r)) := by
  refine ⟨div_number_mod_eq fuel a b q0 r0 hb hbz, fun hfuel ha => ?_⟩
  obtain ⟨q, r, h1, _⟩ := div_number_spec fuel a b q0 r0 '/' hfuel ha hb hbz
  rw [if_neg (by decide : ¬ ('/' = '%'))] at h1
  refine ⟨q, r, h1, ?_⟩
  rw [div_number_mod_eq fuel a b q0 r0 hb hbz, h1]
  rfl

theorem div_number_modulus_witness :
    div_number 9 [1, 7] [5] [] [] '%' =
        (div_number 9 [1, 7] [5] [] [] '/').map (fun t => (t.1, t.2.2, t.2.2)) ∧
      ∃ q r, div_number 9 [1, 7] [5] [] [] '/' = some (SUCCESS, q, r) ∧
        div_number 9 [1, 7] [5] [] [] '%' = some (SUCCESS, r, r) :=
  ⟨(div_number_modulus 9 [1, 7] [5] [] [] (by decide) (by decide)).1,
    (div_number_modulus 9 [1, 7] [5] [] [] (by decide) (by decide)).2 (by decide) (by decide)⟩

/-- The partial remainder that the digit walk ends with is normalized as soon
as one digit has been brought down. -/
theorem div_walk_cur_normalized (fuel : Nat) (divisor : List Int) (hfuel : 9 ≤ fuel)
    (hd : normalized divisor) (ds cur quot : List Int) (hds : is_digits ds)
    (hc : cur = [] ∨ normalized cur) (hlt : value cur < value divisor)
    (r : List Int × List Int) (hr : div_walk fuel divisor ds cur quot = some r) :
    (ds = [] ∧ r.1 = cur) ∨ normalized r.1 := by
  induction ds generalizing cur quot with
  | nil =>
    left
    rw [div_walk] at hr
    exact ⟨rfl, by rw [← Option.some.inj hr]⟩
  | cons d rest ih =>
    right
    obtain ⟨hd9, hrest⟩ := is_digits_cons.mp hds
    have hcd : is_digits cur := by
      rcases hc with rfl | h
      · exact is_digits_nil
      · exact h.2.1
    have hc0 := value_nonneg hcd
    have hn1 : normalized (trim_leading_zeroes (dl_insert_last cur d)) := by
      apply trim_normalized
      · simp [dl_insert_last]
      · unfold dl_insert_last
        rw [is_digits_append]
        exact ⟨hcd, by intro z hz; simp only [List.mem_singleton] at hz; rw [hz]; exact hd9⟩
    have hv1 : value (trim_leading_zeroes (dl_insert_last cur d)) = 10 * value cur + d := by
      rw [trim_value]; exact value_append_singleton cur d
    rw [div_walk] at hr
    rcases is_ge_spec hn1 hd with ⟨hg, hv⟩ | ⟨hg, hv⟩
    · rw [hg] at hr
      simp only [one_ne_zero, if_false] at hr
      obtain ⟨cur1, k, h1, h2, h3, _, _, _⟩ :=
        div_search_spec fuel _ divisor 0 hn1 hd
          (by rw [hv1]
              have : (9 : Int) ≤ (fuel : Int) := by exact_mod_cast hfuel
              nlinarith)
      rw [h1] at hr
      rcases ih cur1 _ hrest (Or.inr h2) h3 hr with ⟨_, he⟩ | hn
      · rw [he]; exact h2
      · exact hn
    · rw [hg] at hr
      simp only [if_true] at hr
      rcases ih _ _ hrest (Or.inr hn1) hv hr with ⟨_, he⟩ | hn
      · rw [he]; exact hn1
      · exact hn

theorem div_number_norm (fuel : Nat) (a b q0 r0 : List Int) (ch : Char) (hfuel : 9 ≤ fuel)
    (ha : normalized a) (hb : normalized b) (hbz : b ≠ [0]) :
    ∃ q r, div_number fuel a b q0 r0 ch = some (SUCCESS, if ch = '%' then r else q, r) ∧
      normalized q ∧ normalized r := by
  by_cases hge : is_greater_or_equal a b = 0
  · rw [div_number_early fuel a b q0 r0 ch hb hbz hge]
    exact ⟨[0], a, rfl, by decide, ha⟩
  · have hw := normalized_pos hb hbz
    obtain ⟨cur1, qs, h1, _, _, h4, h5, _⟩ :=
      div_walk_spec fuel b hfuel hb a [] [] ha.2.1 (Or.inl rfl) (by rw [value_nil]; exact hw)
    have hcn : normalized cur1 := by
      rcases div_walk_cur_normalized fuel b hfuel hb a [] [] ha.2.1 (Or.inl rfl)
        (by rw [value_nil]; exact hw) _ h1 with ⟨he, _⟩ | hn
      · exact absurd he ha.1
      · exact hn
    have hqne : qs ≠ [] := by
      intro h; rw [h] at h5
      exact ha.1 (List.length_eq_zero.mp h5.symm)
    refine ⟨trim_leading_zeroes qs, trim_leading_zeroes cur1, ?_, trim_normalized hqne h4,
      trim_normalized hcn.1 hcn.2.1⟩
    unfold div_number
    simp only [div_zero_check_false hb hbz, if_false, dl_delete_list, copy_list_eq, hge, h1,
      List.nil_append]

/-- C27: for a normalized dividend and a normalized non-zero divisor (at least
9 iterations allowed per quotient digit) `div_number` returns `SUCCESS` with a
quotient and a remainder that are both normalized: non-empty, digits only, no
leading zero unless exactly `[0]`; this covers the early-exit path and the
digit-walk path. -/
theorem div_number_normalized (fuel : Nat) (a b q0 r0 : List Int) (hfuel : 9 ≤ fuel)
    (ha : normalized a) (hb : normalized b) (hbz : b ≠ [0]) :
    ∃ q r, div_number fuel a b q0 r0 '/' = some (SUCCESS, q, r) ∧
      normalized q ∧ normalized r := by
  obtain ⟨q, r, h1, h2, h3⟩ := div_number_norm fuel a b q0 r0 '/' hfuel ha hb hbz
  rw [if_neg (by decide : ¬ ('/' = '%'))] at h1
  exact ⟨q, r, h1, h2, h3⟩

theorem div_number_normalized_witness :
    ∃ q r, div_number 9 [1, 0, 0, 7] [5] [] [] '/' = some (SUCCESS, q, r) ∧
      normalized q ∧ normalized r :=
  div_number_normalized 9 [1, 0, 0, 7] [5] [] [] (by decide) (by decide) (by decide)
    (by decide)

/-! ## Multiplication: canonical result, commutativity -/

theorem take_succ_getD (arr : List Int) (j : Nat) (hj : j < arr.length) :
    List.take (j + 1) arr = List.take j arr ++ [arr.getD j 0] := by
  rw [List.take_succ, List.getD_eq_getElem?_getD, List.getElem?_eq_getElem hj]
  rfl

/-- The list that `mul_number` appends to the result list: the cells from
`first_digit_index` down to `0`. -/
theorem mul_number_eq {a b : List Int} (l3 : List Int) (hne : a ≠ []) (ha : is_digits a)
    (hb : is_digits b) :
    mul_number a b l3 = (SUCCESS, l3 ++
      ((mul_cells a b).1.take
        (mul_first_digit (mul_cells a b).1 (a.length + b.length - 1) + 1)).reverse) := by
  obtain ⟨h1, _, _, _⟩ := mul_cells_spec ha hb
  have hpos : 0 < a.length := List.length_pos.mpr hne
  have hn : ¬ (a.length + b.length = 0) := by omega
  have hle := mul_first_digit_le (mul_cells a b).1 (a.length + b.length - 1)
  unfold mul_number get_list_length
  simp only [hn, if_false]
  rw [mul_emit_eq _ _ _ (by rw [h1]; omega)]

theorem mul_number_normalized {a b : List Int} (hne : a ≠ []) (ha : is_digits a)
    (hb : is_digits b) : normalized (mul_number a b []).2 := by
  have hdig := mul_number_digits hne ha hb
  obtain ⟨h1, _, _, _⟩ := mul_cells_spec ha hb
  have hpos : 0 < a.length := List.length_pos.mpr hne
  have hle := mul_first_digit_le (mul_cells a b).1 (a.length + b.length - 1)
  have hidx : mul_first_digit (mul_cells a b).1 (a.length + b.length - 1)
      < (mul_cells a b).1.length := by rw [h1]; omega
  rw [mul_number_eq [] hne ha hb] at hdig ⊢
  simp only [List.nil_append] at hdig ⊢
  rw [take_succ_getD _ _ hidx, List.reverse_append] at hdig ⊢
  simp only [List.reverse_cons, List.reverse_nil, List.nil_append, List.singleton_append]
    at hdig ⊢
  refine ⟨by simp, hdig, ?_⟩
  intro hhead
  simp only [List.head?_cons, Option.some.injEq] at hhead
  rcases mul_first_digit_nonzero (mul_cells a b).1 (a.length + b.length - 1) with h0 | hnz
  · rw [h0] at hhead ⊢
    rw [hhead]; simp
  · exact absurd hhead hnz

theorem normalized_value_zero {l : List Int} (h : normalized l) (hv : value l = 0) :
    l = [0] := by
  by_contra hne
  have := normalized_pos h hne
  omega

/-- C26: for non-empty digit sequences `a` and `b`, normalized or not, the
result of `mul_number` (started on an empty result list) has at least one
digit and no leading zero unless it is exactly `[0]`; and when either operand
has value zero the result is exactly `[0]`. -/
theorem mul_number_canonical (a b : List Int) (hane : a ≠ []) (_hbne : b ≠ [])
    (ha : is_digits a) (hb : is_digits b) :
    (mul_number a b []).2 ≠ [] ∧
      ((mul_number a b []).2.head? = some 0 → (mul_number a b []).2 = [0]) ∧
      (value a = 0 ∨ value b = 0 → (mul_number a b []).2 = [0]) := by
  have hn := mul_number_normalized hane ha hb
  refine ⟨hn.1, hn.2.2, fun hz => ?_⟩
  apply normalized_value_zero hn
  rw [(mul_number_spec hane ha hb).2]
  rcases hz with h | h <;> rw [h] <;> simp

theorem mul_number_canonical_witness :
    (mul_number [0, 0] [0, 1, 2] []).2 ≠ [] ∧
      ((mul_number [0, 0] [0, 1, 2] []).2.head? = some 0 →
        (mul_number [0, 0] [0, 1, 2] []).2 = [0]) ∧
      (mul_number [0, 0] [0, 1, 2] []).2 = [0] :=
  ⟨(mul_number_canonical [0, 0] [0, 1, 2] (by decide) (by decide) (by decide) (by decide)).1,
    (mul_number_canonical [0, 0] [0, 1, 2] (by decide) (by decide) (by decide) (by decide)).2.1,
    (mul_number_canonical [0, 0] [0, 1, 2] (by decide) (by decide) (by decide) (by decide)).2.2
      (Or.inl (by decide))⟩

theorem mul_number_append {a b : List Int} (l3 : List Int) (hne : a ≠ []) (ha : is_digits a)
    (hb : is_digits b) : (mul_number a b l3).2 = l3 ++ (mul_number a b []).2 := by
  rw [mul_number_eq l3 hne ha hb, mul_number_eq [] hne ha hb]
  simp

/-- C21: for non-empty digit sequences `a` and `b`, `mul_number(a, b)` and
`mul_number(b, a)` return the same status and leave the same digit sequence in
the result list (whatever it held on entry). -/
theorem mul_number_comm (a b l3 : List Int) (hane : a ≠ []) (hbne : b ≠ [])
    (ha : is_digits a) (hb : is_digits b) :
    mul_number a b l3 = mul_number b a l3 := by
  have hab := mul_number_normalized hane ha hb
  have hba := mul_number_normalized hbne hb ha
  have hv : value (mul_number a b []).2 = value (mul_number b a []).2 := by
    rw [(mul_number_spec hane ha hb).2, (mul_number_spec hbne hb ha).2]; ring
  have heq := normalized_unique hab hba hv
  have h1 : (mul_number a b l3).1 = (mul_number b a l3).1 := by
    rw [mul_number_eq l3 hane ha hb, mul_number_eq l3 hbne hb ha]
  have h2 : (mul_number a b l3).2 = (mul_number b a l3).2 := by
    rw [mul_number_append l3 hane ha hb, mul_number_append l3 hbne hb ha, heq]
  exact Prod.ext h1 h2

theorem mul_number_comm_witness :
    mul_number [1, 2, 3] [4, 5] [] = mul_number [4, 5] [1, 2, 3] [] :=
  mul_number_comm [1, 2, 3] [4, 5] [] (by decide) (by decide) (by decide) (by decide)

/-! ## The two comparators and the two borrow loops -/

/-- C37: for all digit sequences (indeed all lists) `a` and `b`,
`compare_numbers(a, b)` returns `1` if and only if `is_greater_or_equal(a, b)`
returns `0` (and `0` otherwise), and it exchanges the caller's two references
exactly when it returns `1`, leaving them in place when it returns `0`. -/
theorem compare_numbers_agrees (a b : List Int) :
    ((compare_numbers a b).1 = 1 ↔ is_greater_or_equal a b = 0) ∧
      (((compare_numbers a b).1 = 1 ∧ (compare_numbers a b).2 = (b, a)) ∨
        ((compare_numbers a b).1 = 0 ∧ (compare_numbers a b).2 = (a, b))) := by
  rw [compare_numbers_eq]
  by_cases h : is_greater_or_equal a b = 0
  · rw [if_pos h]
    exact ⟨⟨fun _ => h, fun _ => rfl⟩, Or.inl ⟨rfl, rfl⟩⟩
  · rw [if_neg h]
    exact ⟨⟨fun h1 => absurd h1 (by show ¬ ((0 : Int) = 1); decide), fun h0 => absurd h0 h⟩,
      Or.inr ⟨rfl, rfl⟩⟩

/-- C38: for all digit sequences (indeed all lists) `a` and `b` and an
initially empty result, the list that `sub_number(a, b)` produces is the one
that `subtract_lists(x, y)` produces, where `(x, y) = (a, b)` when
`compare_numbers` reports no swap and `(b, a)` when it reports a swap. -/
theorem sub_number_eq_subtract_lists (a b r : List Int) :
    (sub_number a b []).2.2.2 =
      (if (compare_numbers a b).1 = 1 then subtract_lists b a r else subtract_lists a b r) := by
  unfold sub_number subtract_lists dl_delete_list
  simp only [compare_numbers_eq]
  by_cases h : is_greater_or_equal a b = 0
  · simp only [h, if_true]
    rw [sub_loop_eq_subtract_loop _ _ _ _ (Or.inl rfl)]
  · simp only [h, if_false, zero_ne_one]
    rw [sub_loop_eq_subtract_loop _ _ _ _ (Or.inl rfl)]

/-! ## The addition step -/

/-- C34: for every sum in `0..19`, `update_result_add` inserts the digit
`sum % 10` in front of the result list and sets the carry to `sum / 10`, and
that carry is `0` or `1`. -/
theorem update_result_add_formula (res : List Int) (s : Int) (h0 : 0 ≤ s) (h19 : s ≤ 19) :
    update_result_add res s = (s % 10 :: res, s / 10) ∧ (s / 10 = 0 ∨ s / 10 = 1) := by
  refine ⟨?_, by omega⟩
  unfold update_result_add dl_insert_first
  by_cases h : s > 9
  · rw [if_pos h, Int.tdiv_eq_ediv h0 (by norm_num), Int.tmod_eq_emod h0 (by norm_num)]
  · rw [if_neg h]
    have h1 : s % 10 = s := by omega
    have h2 : s / 10 = 0 := by omega
    rw [h1, h2]

theorem update_result_add_formula_witness :
    update_result_add [3] 17 = (17 % 10 :: [3], 17 / 10) ∧
      ((17 : Int) / 10 = 0 ∨ (17 : Int) / 10 = 1) :=
  update_result_add_formula [3] 17 (by decide) (by decide)

/-! ## The multiplication accumulator is large enough -/

theorem mul_number_length_le {a b : List Int} (hne : a ≠ []) (ha : is_digits a)
    (hb : is_digits b) : (mul_number a b []).2.length ≤ a.length + b.length := by
  obtain ⟨h1, _, _, _⟩ := mul_cells_spec ha hb
  rw [mul_number_eq [] hne ha hb]
  simp only [List.nil_append, List.length_reverse, List.length_take]
  rw [h1]
  exact Nat.min_le_right _ _

/-- C35: for non-empty digit sequences `a` and `b`, after carry propagation
over the `len a + len b` cells of `mul_number` the carry out of the most
significant cell is `0`, the cells hold the whole product
`value a * value b`, and the result has at most `len a + len b` digits. -/
theorem mul_no_carry_out (a b : List Int) (hane : a ≠ []) (_hbne : b ≠ [])
    (ha : is_digits a) (hb : is_digits b) :
    (mul_cells a b).2 = 0 ∧ (mul_cells a b).1.length = a.length + b.length ∧
      value_le (mul_cells a b).1 = value a * value b ∧
      (mul_number a b []).2.length ≤ a.length + b.length := by
  obtain ⟨h1, _, h3, h4⟩ := mul_cells_spec ha hb
  exact ⟨h3, h1, h4, mul_number_length_le hane ha hb⟩

theorem mul_no_carry_out_witness :
    (mul_cells [9, 9] [9, 9]).2 = 0 ∧ (mul_cells [9, 9] [9, 9]).1.length = 2 + 2 ∧
      value_le (mul_cells [9, 9] [9, 9]).1 = value [9, 9] * value [9, 9] ∧
      (mul_number [9, 9] [9, 9] []).2.length ≤ 2 + 2 :=
  mul_no_carry_out [9, 9] [9, 9] (by decide) (by decide) (by decide) (by decide)

/-! ## Every engine keeps digits in `0..9` -/

theorem subtract_lists_digits {a b : List Int} (r : List Int) (ha : is_digits a)
    (hb : is_digits b) : is_digits (subtract_lists a b r) := by
  obtain ⟨p, _, hp, _, hpd, _, _⟩ :=
    subtract_loop_spec a.reverse b.reverse 0 [] (is_digits_reverse.mpr ha)
      (is_digits_reverse.mpr hb) (Or.inl rfl)
  unfold subtract_lists dl_delete_list
  simp only [hp, List.append_nil]
  exact trim_is_digits hpd

theorem sub_number_digits {a b : List Int} (ha : is_digits a) (hb : is_digits b) :
    is_digits (sub_number a b []).2.2.2 := by
  unfold sub_number
  simp only [compare_numbers_eq]
  by_cases h : is_greater_or_equal a b = 0
  · simp only [h, if_true]
    rw [sub_loop_eq_subtract_loop _ _ _ _ (Or.inl rfl)]
    exact subtract_lists_digits [] hb ha
  · simp only [h, if_false]
    rw [sub_loop_eq_subtract_loop _ _ _ _ (Or.inl rfl)]
    exact subtract_lists_digits [] ha hb

theorem mul_number_digits_any {a b : List Int} (ha : is_digits a) (hb : is_digits b) :
    is_digits (mul_number a b []).2 := by
  obtain ⟨h1, h2, _, _⟩ := mul_cells_spec ha hb
  unfold mul_number get_list_length
  by_cases hn : a.length + b.length = 0
  · simp only [hn, if_true]
    exact is_digits_nil
  · simp only [hn, if_false]
    have hle := mul_first_digit_le (mul_cells a b).1 (a.length + b.length - 1)
    rw [mul_emit_eq _ _ _ (by rw [h1]; omega), List.nil_append, is_digits_reverse]
    intro d hd
    exact h2 d (List.mem_of_mem_take hd)

/-- C39: if every digit of both operands is in `0..9`, then so is every digit
of the output of `add_number`, of `sub_number` and of `subtract_lists` (also
when the first operand is the smaller one), of `mul_number`, and — for a
normalized non-zero divisor, at least 9 iterations allowed per quotient digit —
of the quotient and the remainder that `div_number` returns. -/
theorem engines_keep_digits (fuel : Nat) (a b r q0 r0 : List Int)
    (ha : is_digits a) (hb : is_digits b) :
    is_digits (add_number a b []).2 ∧ is_digits (sub_number a b []).2.2.2 ∧
      is_digits (subtract_lists a b r) ∧ is_digits (mul_number a b []).2 ∧
      (9 ≤ fuel → normalized b → b ≠ [0] →
        ∃ q rem, div_number fuel a b q0 r0 '/' = some (SUCCESS, q, rem) ∧
          is_digits q ∧ is_digits rem) := by
  refine ⟨add_number_digits ha hb, sub_number_digits ha hb, subtract_lists_digits r ha hb,
    mul_number_digits_any ha hb, fun hfuel hbn hbz => ?_⟩
  obtain ⟨q, rem, h1, h2, h3, _, _⟩ := div_number_spec fuel a b q0 r0 '/' hfuel ha hbn hbz
  rw [if_neg (by decide : ¬ ('/' = '%'))] at h1
  exact ⟨q, rem, h1, h2, h3⟩

theorem engines_keep_digits_witness :
    is_digits (add_number [0, 5] [9, 9] []).2 ∧ is_digits (sub_number [0, 5] [9, 9] []).2.2.2 ∧
      is_digits (subtract_lists [0, 5] [9, 9] [7]) ∧ is_digits (mul_number [0, 5] [9, 9] []).2 ∧
      ∃ q rem, div_number 9 [0, 5] [9, 9] [] [] '/' = some (SUCCESS, q, rem) ∧
        is_digits q ∧ is_digits rem :=
  ⟨(engines_keep_digits 9 [0, 5] [9, 9] [7] [] [] (by decide) (by decide)).1,
    (engines_keep_digits 9 [0, 5] [9, 9] [7] [] [] (by decide) (by decide)).2.1,
    (engines_keep_digits 9 [0, 5] [9, 9] [7] [] [] (by decide) (by decide)).2.2.1,
    (engines_keep_digits 9 [0, 5] [9, 9] [7] [] [] (by decide) (by decide)).2.2.2.1,
    (engines_keep_digits 9 [0, 5] [9, 9] [7] [] [] (by decide) (by decide)).2.2.2.2
      (by decide) (by decide) (by decide)⟩

/-! ## The quotient-digit search is bounded by 9 -/

/-- One dividend position: after the bring-down onto a partial remainder below
the divisor, the repeated-subtraction loop ends within 9 iterations. -/
theorem div_step_spec (fuel : Nat) (b : List Int) (hfuel : 9 ≤ fuel) (hb : normalized b)
    (cur : List Int) (d : Int) (hc : cur = [] ∨ normalized cur) (hlt : value cur < value b)
    (hd0 : 0 ≤ d) (hd9 : d ≤ 9) :
    ∃ cur1 k, div_search fuel (trim_leading_zeroes (dl_insert_last cur d)) b 0 = some (cur1, k) ∧
      0 ≤ k ∧ k ≤ 9 ∧ normalized cur1 ∧ value cur1 < value b := by
  have hcd : is_digits cur := by
    rcases hc with rfl | h
    · exact is_digits_nil
    · exact h.2.1
  have hc0 := value_nonneg hcd
  have hn1 : normalized (trim_leading_zeroes (dl_insert_last cur d)) := by
    apply trim_normalized
    · simp [dl_insert_last]
    · unfold dl_insert_last
      rw [is_digits_append]
      exact ⟨hcd, by intro z hz; simp only [List.mem_singleton] at hz; rw [hz]; exact ⟨hd0, hd9⟩⟩
  have hv1 : value (trim_leading_zeroes (dl_insert_last cur d)) = 10 * value cur + d := by
    rw [trim_value]; exact value_append_singleton cur d
  obtain ⟨cur1, k, h1, h2, h3, h4, h5, _⟩ :=
    div_search_spec fuel _ b 0 hn1 hb
      (by rw [hv1]
          have : (9 : Int) ≤ (fuel : Int) := by exact_mod_cast hfuel
          nlinarith)
  rw [zero_add] at h1
  refine ⟨cur1, k, h1, h5, ?_, h2, h3⟩
  by_contra hk
  have hk10 : 10 ≤ k := by omega
  have hc1 := value_nonneg h2.2.1
  have hw : 0 < value b := by omega
  have := mul_le_mul_of_nonneg_right hk10 hw.le
  rw [hv1] at h4
  omega

theorem div_walk_append (fuel : Nat) (b p s cur quot : List Int) :
    div_walk fuel b (p ++ s) cur quot =
      (div_walk fuel b p cur quot).bind (fun r => div_walk fuel b s r.1 r.2) := by
  induction p generalizing cur quot with
  | nil => simp [div_walk]
  | cons d rest ih =>
    rw [List.cons_append, div_walk, div_walk]
    by_cases hg : is_greater_or_equal (trim_leading_zeroes (dl_insert_last cur d)) b = 0
    · rw [if_pos hg, if_pos hg]; exact ih _ _
    · rw [if_neg hg, if_neg hg]
      cases div_search fuel (trim_leading_zeroes (dl_insert_last cur d)) b 0 with
      | none => rfl
      | some r => exact ih _ _

/-- C33: for a normalized non-zero divisor `b`: (1) at a dividend position
whose partial remainder before the bring-down is below the divisor, the
repeated-subtraction loop finishes within 9 iterations with a count `k` in
`0..9` and again a partial remainder below the divisor; (2) after any
digit-sequence prefix `p` of a dividend the walk (9 iterations allowed per
position) has emitted `len p` quotient digits, all in `0..9`, and holds a
partial remainder below the divisor; (3) the walk over `p ++ s` is the walk
over `s` continued from the state reached after `p`. -/
theorem div_search_bounded (b : List Int) (hb : normalized b) (hbz : b ≠ [0]) :
    (∀ (cur : List Int) (d : Int), (cur = [] ∨ normalized cur) → value cur < value b →
        0 ≤ d → d ≤ 9 →
        ∃ cur1 k, div_search 9 (trim_leading_zeroes (dl_insert_last cur d)) b 0
            = some (cur1, k) ∧
          0 ≤ k ∧ k ≤ 9 ∧ normalized cur1 ∧ value cur1 < value b) ∧
      (∀ p : List Int, is_digits p →
        ∃ cur qs, div_walk 9 b p [] [] = some (cur, qs) ∧ value cur < value b ∧
          is_digits qs ∧ qs.length = p.length) ∧
      (∀ p s cur quot : List Int, div_walk 9 b (p ++ s) cur quot =
        (div_walk 9 b p cur quot).bind (fun r => div_walk 9 b s r.1 r.2)) := by
  refine ⟨fun cur d hc hlt hd0 hd9 => div_step_spec 9 b (le_refl 9) hb cur d hc hlt hd0 hd9,
    fun p hp => ?_, fun p s cur quot => div_walk_append 9 b p s cur quot⟩
  have hw := normalized_pos hb hbz
  obtain ⟨cur1, qs, h1, _, h3, h4, h5, _⟩ :=
    div_walk_spec 9 b (le_refl 9) hb p [] [] hp (Or.inl rfl) (by rw [value_nil]; exact hw)
  exact ⟨cur1, qs, by simpa using h1, h3, h4, h5⟩

theorem div_search_bounded_witness :
    (∃ cur1 k, div_search 9 (trim_leading_zeroes (dl_insert_last [4] 9)) [5] 0
          = some (cur1, k) ∧
        0 ≤ k ∧ k ≤ 9 ∧ normalized cur1 ∧ value cur1 < value [5]) ∧
      ∃ cur qs, div_walk 9 [5] [9, 9, 9] [] [] = some (cur, qs) ∧ value cur < value [5] ∧
        is_digits qs ∧ qs.length = [9, 9, 9].length :=
  ⟨(div_search_bounded [5] (by decide) (by decide)).1 [4] 9 (Or.inr (by decide)) (by decide)
      (by decide) (by decide),
    (div_search_bounded [5] (by decide) (by decide)).2.1 [9, 9, 9] (by decide)⟩

/-! ## Zero divisors: the normalized ones are reported, `[0, 0]` is not -/

theorem getD_set (arr : List Int) (n k : Nat) (v : Int) :
    (arr.set n v).getD k 0 = if n = k ∧ n < arr.length then v else arr.getD k 0 := by
  simp only [List.getD_eq_getElem?_getD, List.getElem?_set]
  by_cases h : n = k
  · subst h
    by_cases h2 : n < arr.length
    · simp [h2]
    · simp [h2, List.getElem?_eq_none (Nat.le_of_not_lt h2)]
  · simp [h]

theorem getD_of_mem {arr : List Int} {c : Int} (h : c ∈ arr) : ∃ k, arr.getD k 0 = c := by
  obtain ⟨k, hk⟩ := List.mem_iff_getElem?.mp h
  exact ⟨k, by rw [List.getD_eq_getElem?_getD, hk]; rfl⟩

/-- One pass of the inner loop adds one digit product, at most `81`, to each
cell `i + j .. i + j + len ys - 1` and leaves the other cells alone. -/
theorem mul_inner_cell (d : Int) (i : Nat) (ys : List Int) (j : Nat) (arr : List Int)
    (hd : 0 ≤ d ∧ d ≤ 9) (hys : is_digits ys) (k : Nat) :
    arr.getD k 0 ≤ (mul_inner d i ys j arr).getD k 0 ∧
      (mul_inner d i ys j arr).getD k 0 ≤ arr.getD k 0 + 81 ∧
      (¬ (i + j ≤ k ∧ k < i + j + ys.length) →
        (mul_inner d i ys j arr).getD k 0 = arr.getD k 0) := by
  induction ys generalizing j arr with
  | nil => simp [mul_inner]
  | cons e u ih =>
    obtain ⟨he, hu⟩ := is_digits_cons.mp hys
    have hprod0 : 0 ≤ d * e := mul_nonneg hd.1 he.1
    have hprod81 : d * e ≤ 81 := by nlinarith [hd.1, hd.2, he.1, he.2]
    rw [mul_inner]
    obtain ⟨h1, h2, h3⟩ := ih (j + 1) (arr.set (i + j) (arr.getD (i + j) 0 + d * e)) hu
    rw [getD_set] at h1 h2 h3
    simp only [List.length_cons]
    by_cases hk : i + j = k
    · subst hk
      have hout : ¬ (i + (j + 1) ≤ i + j ∧ i + j < i + (j + 1) + u.length) := by omega
      have h3' := h3 hout
      by_cases hlen : i + j < arr.length
      · simp only [true_and, hlen, if_true] at h1 h2 h3'
        refine ⟨by omega, by omega, fun hno => ?_⟩
        exact absurd ⟨le_refl _, by omega⟩ hno
      · simp only [true_and, hlen, if_false] at h1 h2 h3'
        exact ⟨by omega, by omega, fun _ => h3'⟩
    · have hne : ¬ (i + j = k ∧ i + j < arr.length) := fun h => hk h.1
      simp only [hne, if_false] at h1 h2 h3
      refine ⟨h1, h2, fun hno => h3 ?_⟩
      omega

theorem mul_outer_bounded (ys xs : List Int) (i : Nat) (arr : List Int)
    (hxs : is_digits xs) (hys : is_digits ys) (h : cells_bounded i ys.length arr) :
    cells_bounded (i + xs.length) ys.length (mul_outer ys xs i arr) := by
  induction xs generalizing i arr with
  | nil => simpa [mul_outer] using h
  | cons d t ih =>
    obtain ⟨hd, ht⟩ := is_digits_cons.mp hxs
    rw [mul_outer]
    have hstep : cells_bounded (i + 1) ys.length (mul_inner d i ys 0 arr) := by
      intro k
      obtain ⟨g1, g2, g3⟩ := mul_inner_cell d i ys 0 arr hd hys k
      obtain ⟨b0, b1, b2⟩ := h k
      by_cases htouch : i + 0 ≤ k ∧ k < i + 0 + ys.length
      · refine ⟨by omega, by omega, by omega⟩
      · rw [g3 htouch]
        refine ⟨b0, by omega, by omega⟩
    have := ih (i + 1) _ ht hstep
    have hlen : i + (d :: t).length = i + 1 + t.length := by simp; omega
    rw [hlen]
    exact this

theorem mul_products_bound {a b : List Int} (ha : is_digits a) (hb : is_digits b) :
    ∀ c ∈ mul_products a b, 0 ≤ c ∧ c ≤ 81 * ((min a.length b.length : Nat) : Int) := by
  have h0 : cells_bounded 0 b.reverse.length
      (List.replicate (a.length + b.length) (0 : Int)) := by
    intro k
    have hz : (List.replicate (a.length + b.length) (0 : Int)).getD k 0 = 0 := by
      rw [List.getD_eq_getElem?_getD]
      cases hq : (List.replicate (a.length + b.length) (0 : Int))[k]? with
      | none => rfl
      | some v =>
        have := List.getElem?_mem hq
        rw [List.eq_of_mem_replicate this]; rfl
    rw [hz]
    exact ⟨le_refl 0, by positivity, by positivity⟩
  have hb2 := mul_outer_bounded b.reverse a.reverse 0 _
    (is_digits_reverse.mpr ha) (is_digits_reverse.mpr hb) h0
  intro c hc
  unfold mul_products get_list_length at hc
  obtain ⟨k, hk⟩ := getD_of_mem hc
  obtain ⟨g0, g1, _⟩ := hb2 k
  rw [hk] at g0 g1
  simp only [List.length_reverse, Nat.zero_add] at g1
  exact ⟨g0, g1⟩

theorem mul_carry_sums_bound (n : Int) (arr : List Int) (carry : Int)
    (harr : ∀ c ∈ arr, 0 ≤ c ∧ c ≤ 81 * n) (hc : 0 ≤ carry ∧ carry ≤ 9 * n) :
    ∀ c ∈ mul_carry_sums arr carry, 0 ≤ c ∧ c ≤ 90 * n := by
  induction arr generalizing carry with
  | nil => intro c hcm; simp [mul_carry_sums] at hcm
  | cons x rest ih =>
    obtain ⟨hx0, hx1⟩ := harr x (List.mem_cons_self _ _)
    have hcell0 : 0 ≤ x + carry := by omega
    have hdiv : Int.tdiv (x + carry) 10 = (x + carry) / 10 :=
      Int.tdiv_eq_ediv hcell0 (by norm_num)
    intro c hcm
    rw [mul_carry_sums] at hcm
    rcases List.mem_cons.mp hcm with rfl | hcm
    · omega
    · exact ih (Int.tdiv (x + carry) 10) (fun z hz => harr z (List.mem_cons_of_mem _ hz))
        (by rw [hdiv]; omega) c hcm

theorem mul_carry_sums_map (arr : List Int) (carry : Int) :
    (mul_carry arr carry).1 = (mul_carry_sums arr carry).map (fun c => Int.tmod c 10) := by
  induction arr generalizing carry with
  | nil => rfl
  | cons x rest ih => simp only [mul_carry, mul_carry_sums, List.map_cons, ih]

/-- C36: for digit sequences `a` and `b` with `n = min (len a) (len b)`, every
accumulator cell of `mul_number` is between `0` and `90 * n` (indeed at most
`81 * n`) after the product accumulation, and between `0` and `90 * n` at the
moment the incoming carry has been added to it during propagation; hence all
these values are below `2 ^ 31` whenever `n ≤ 23860929`.  The cells that
`mul_number` reads are the residues `% 10` of the latter values. -/
theorem mul_no_overflow (a b : List Int) (ha : is_digits a) (hb : is_digits b) :
    (∀ c ∈ mul_products a b, 0 ≤ c ∧ c ≤ 81 * ((min a.length b.length : Nat) : Int) ∧
        c ≤ 90 * ((min a.length b.length : Nat) : Int)) ∧
      (∀ c ∈ mul_carry_sums (mul_products a b) 0,
        0 ≤ c ∧ c ≤ 90 * ((min a.length b.length : Nat) : Int)) ∧
      (min a.length b.length ≤ 23860929 →
        (∀ c ∈ mul_products a b, c < 2 ^ 31) ∧
          ∀ c ∈ mul_carry_sums (mul_products a b) 0, c < 2 ^ 31) ∧
      (mul_cells a b).1 =
        (mul_carry_sums (mul_products a b) 0).map (fun c => Int.tmod c 10) := by
  have hp := mul_products_bound ha hb
  have hn0 : (0 : Int) ≤ ((min a.length b.length : Nat) : Int) := Int.natCast_nonneg _
  have hs := mul_carry_sums_bound ((min a.length b.length : Nat) : Int) (mul_products a b) 0
    hp ⟨le_refl 0, by omega⟩
  refine ⟨fun c hc => ?_, hs, fun hn => ⟨fun c hc => ?_, fun c hc => ?_⟩, ?_⟩
  · obtain ⟨h0, h1⟩ := hp c hc
    exact ⟨h0, h1, by omega⟩
  · obtain ⟨_, h1⟩ := hp c hc
    have : ((min a.length b.length : Nat) : Int) ≤ 23860929 := by exact_mod_cast hn
    norm_num
    omega
  · obtain ⟨_, h1⟩ := hs c hc
    have : ((min a.length b.length : Nat) : Int) ≤ 23860929 := by exact_mod_cast hn
    norm_num
    omega
  · exact mul_carry_sums_map _ _

theorem mul_no_overflow_witness :
    (∀ c ∈ mul_products [9, 9] [9, 9, 9],
        0 ≤ c ∧ c ≤ 81 * ((min 2 3 : Nat) : Int) ∧ c ≤ 90 * ((min 2 3 : Nat) : Int)) ∧
      (∀ c ∈ mul_carry_sums (mul_products [9, 9] [9, 9, 9]) 0,
        0 ≤ c ∧ c ≤ 90 * ((min 2 3 : Nat) : Int)) ∧
      ((∀ c ∈ mul_products [9, 9] [9, 9, 9], c < 2 ^ 31) ∧
        ∀ c ∈ mul_carry_sums (mul_products [9, 9] [9, 9, 9]) 0, c < 2 ^ 31) :=
  ⟨(mul_no_overflow [9, 9] [9, 9, 9] (by decide) (by decide)).1,
    (mul_no_overflow [9, 9] [9, 9, 9] (by decide) (by decide)).2.1,
    (mul_no_overflow [9, 9] [9, 9, 9] (by decide) (by decide)).2.2.1 (by decide)⟩

end APC
